import Mathlib

/-!
# Verification of the `simpleEvents` cooperative scheduler

Shallow embedding of the two scheduler variants of the repository:

* `SimpleEvents` (full variant, `src/simpleEvents.h`): periodic schedules
  and trigger-driven reactions with debounce (`timeout`), post-trigger
  `delay`, pause/resume/cancel/stop control operations, and a three-phase
  `run()` tick.
* `TinyEvents` (compact variant, `src/tinyEvents.h`): the memory-compact
  variant with `setNextSchedule` / `setNextTrigger` / parameterized
  `cancelReaction` and a bit-packed pending set.

Modelling conventions:

* `millis()` is an external clock; every function of the C++ code that
  calls `millis()` takes the sampled value `now : Nat` as an explicit
  argument.  `run()` samples the clock exactly once, so the embedded
  `runTick` takes a single `now` used by all three phases.
* Timestamps and durations (`unsigned long`) are modelled as `Nat`.
  Wraparound of the millisecond counter is explicitly excluded by the
  design (non-goal; behaviour at wraparound is undefined), so the
  unbounded model is the faithful one for the stated properties.
* Ids are C++ `int` and may be negative, so operations take `Int` ids;
  the tables are `List`s indexed 0,1,2,… matching the C++ arrays up to
  the high-water marks `last_schd` / `last_rct`.
* Callbacks and predicates are external collaborators.  Callback
  invocations are recorded in an event log (`Ev`); predicates are
  modelled by their per-tick results `preds : Nat → Bool` (the result the
  predicate of entry `i` would return during this tick).  The engine's
  own state updates are performed exactly as in the source, in source
  order; the log records which callback/predicate invocations happen and
  in which order.
-/

set_option autoImplicit false

namespace SimpleEventsModel

/-- Replace the element at index `n` (no-op when out of range), as a C++
array write `a[n] = f a[n]` does. -/
def modifyIdx {α : Type} (f : α → α) : Nat → List α → List α
  | _, [] => []
  | 0, a :: l => f a :: l
  | n+1, a :: l => a :: modifyIdx f n l

/-! ## Data model of the full variant (`SimpleEvents`)

One schedule entry holds `schd_tIntrvls[i]`, `schd_nextCalls[i]`,
`schd_areActive[i]`; one reaction entry holds `rct_tTimeouts[i]`,
`rct_tDelays[i]`, `rct_nextTrigs[i]`, `rct_nextCalls[i]`,
`rct_areTrigged[i]`, `rct_areActive[i]`.  The callback / predicate
pointers are external and identified by the entry id. -/

structure SchdEntry where
  interval : Nat
  nextCall : Nat
  active : Bool
  deriving Repr, DecidableEq

structure RctEntry where
  timeout : Nat
  delay : Nat
  nextTrig : Nat
  nextCall : Nat
  trigged : Bool
  active : Bool
  deriving Repr, DecidableEq

/-- Default entry: the value of a never-written C++ array slot
(all-zero, inactive). -/
def dS : SchdEntry := ⟨0, 0, false⟩

/-- Default reaction entry (all-zero, not trigged, inactive). -/
def dR : RctEntry := ⟨0, 0, 0, 0, false, false⟩

/-- The engine state of `SimpleEvents<T_MAX, R_MAX>`: capacities plus the
populated prefixes of the entry tables (`schds.length = last_schd + 1`,
`rcts.length = last_rct + 1`). -/
structure SEState where
  tmax : Nat
  rmax : Nat
  schds : List SchdEntry
  rcts : List RctEntry
  deriving Repr, DecidableEq

/-- A freshly constructed engine: `last_schd = last_rct = -1`. -/
def mkSE (tmax rmax : Nat) : SEState := ⟨tmax, rmax, [], []⟩

/-- `last_schd` as a C++ `int`. -/
def SEState.lastSchd (s : SEState) : Int := (s.schds.length : Int) - 1

/-- `last_rct` as a C++ `int`. -/
def SEState.lastRct (s : SEState) : Int := (s.rcts.length : Int) - 1

/-! ## add / control operations of the full variant -/

/-- `SimpleEvents::addSchedule(callback, interval, delay_start)`.
Fails with `-1` when `last_schd > T_MAX - 2` (table full); otherwise
appends an entry with `next_fire = delay_start` (relative until
`begin()`), `active = true`, and returns the new id. -/
def addSchedule (s : SEState) (interval delayStart : Nat) : Int × SEState :=
  if s.schds.length ≥ s.tmax then (-1, s)
  else ((s.schds.length : Int),
    { s with schds := s.schds ++ [⟨interval, delayStart, true⟩] })

/-- `SimpleEvents::addReaction(trigger, callback, timeout, delay, delay_start)`.
Fails with `-1` when `last_rct > R_MAX - 2`; otherwise appends an entry
with the given `timeout` and `delay` stored verbatim,
`next_trigger_check = delay_start`, `active = true`. -/
def addReaction (s : SEState) (timeout delay delayStart : Nat) : Int × SEState :=
  if s.rcts.length ≥ s.rmax then (-1, s)
  else ((s.rcts.length : Int),
    { s with rcts := s.rcts ++ [⟨timeout, delay, delayStart, 0, false, true⟩] })

/-- `SimpleEvents::pauseSchedule(schd_id)`: out-of-range id is a silent
no-op; otherwise clears `schd_areActive[schd_id]`. -/
def pauseSchedule (s : SEState) (id : Int) : SEState :=
  if id < 0 ∨ id > s.lastSchd then s
  else { s with schds := modifyIdx (fun e => { e with active := false }) id.toNat s.schds }

/-- `SimpleEvents::pauseTrigger(rct_id)`: out-of-range id is a silent
no-op; otherwise clears `rct_areActive[rct_id]`. -/
def pauseTrigger (s : SEState) (id : Int) : SEState :=
  if id < 0 ∨ id > s.lastRct then s
  else { s with rcts := modifyIdx (fun e => { e with active := false }) id.toNat s.rcts }

/-- `SimpleEvents::resumeSchedule(schd_id, timestamp, abs)`; `now` is the
`millis()` sample taken when `abs` is false.  Sets `active = true` and
`next_fire = abs ? timestamp : timestamp + now`. -/
def resumeSchedule (s : SEState) (now : Nat) (id : Int) (timestamp : Nat) (abs : Bool) :
    SEState :=
  if id < 0 ∨ id > s.lastSchd then s
  else
    let t := if abs then timestamp else timestamp + now
    { s with schds :=
        modifyIdx (fun e => { e with active := true, nextCall := t }) id.toNat s.schds }

/-- `SimpleEvents::resumeTrigger(rct_id, timestamp, abs)`. -/
def resumeTrigger (s : SEState) (now : Nat) (id : Int) (timestamp : Nat) (abs : Bool) :
    SEState :=
  if id < 0 ∨ id > s.lastRct then s
  else
    let t := if abs then timestamp else timestamp + now
    { s with rcts :=
        modifyIdx (fun e => { e with active := true, nextTrig := t }) id.toNat s.rcts }

/-- `SimpleEvents::cancelReaction(rct_id, timestamp, abs)`: resets
`next_trigger_check` to `abs ? timestamp : timestamp + now` AND clears
`rct_areTrigged[rct_id]`. -/
def cancelReaction (s : SEState) (now : Nat) (id : Int) (timestamp : Nat) (abs : Bool) :
    SEState :=
  if id < 0 ∨ id > s.lastRct then s
  else
    let t := if abs then timestamp else timestamp + now
    { s with rcts :=
        modifyIdx (fun e => { e with nextTrig := t, trigged := false }) id.toNat s.rcts }

/-- `SimpleEvents::stopReaction(rct_id)`: clears `rct_areTrigged[rct_id]`
only. -/
def stopReaction (s : SEState) (id : Int) : SEState :=
  if id < 0 ∨ id > s.lastRct then s
  else { s with rcts := modifyIdx (fun e => { e with trigged := false }) id.toNat s.rcts }

/-- `SimpleEvents::begin()`: adds the single `millis()` sample `now` to
every schedule's `next_fire` and every reaction's `next_trigger_check`,
anchoring the relative initial delays to the epoch. -/
def beginSE (s : SEState) (now : Nat) : SEState :=
  { s with
    schds := s.schds.map (fun e => { e with nextCall := e.nextCall + now }),
    rcts := s.rcts.map (fun e => { e with nextTrig := e.nextTrig + now }) }

/-! ## The `run()` tick

`run()` samples `millis()` once, then performs three loops in order:
schedules, settle of pending reactions, new-trigger scan.  External
callback / predicate invocations are recorded in an event log. -/

/-- An externally observable event of one tick: invocation of schedule
`i`'s callback, invocation of reaction `i`'s callback from the settle
phase, invocation of reaction `i`'s predicate (with its result), and
immediate (`delay == 0`) invocation of reaction `i`'s callback from the
scan phase. -/
inductive Ev where
  | schdAct (i : Nat)
  | settleAct (i : Nat)
  | predCall (i : Nat) (b : Bool)
  | immAct (i : Nat)
  deriving Repr, DecidableEq

/-- The entry id an event refers to. -/
def Ev.idx : Ev → Nat
  | .schdAct i => i
  | .settleAct i => i
  | .predCall i _ => i
  | .immAct i => i

/-- Schedule loop of `run()`: for `i = 0 .. last_schd`, if
`schd_areActive[i] && schd_nextCalls[i] < now` then
`schd_nextCalls[i] += schd_tIntrvls[i]` and only afterwards the callback
is invoked.  `i` is the id of the first entry of `l`. -/
def schdPhase (now : Nat) : Nat → List SchdEntry → List SchdEntry × List Ev
  | _, [] => ([], [])
  | i, e :: l =>
    let rest := schdPhase now (i+1) l
    if e.active = true ∧ e.nextCall < now then
      ({ e with nextCall := e.nextCall + e.interval } :: rest.1, Ev.schdAct i :: rest.2)
    else (e :: rest.1, rest.2)

/-- Settle loop of `run()`: for `i = 0 .. last_rct`, if
`rct_areTrigged[i] && rct_nextCalls[i] < now` then clear
`rct_areTrigged[i]` and only afterwards invoke the callback. -/
def settlePhase (now : Nat) : Nat → List RctEntry → List RctEntry × List Ev
  | _, [] => ([], [])
  | i, e :: l =>
    let rest := settlePhase now (i+1) l
    if e.trigged = true ∧ e.nextCall < now then
      ({ e with trigged := false } :: rest.1, Ev.settleAct i :: rest.2)
    else (e :: rest.1, rest.2)

/-- New-trigger scan of `run()`: for `i = 0 .. last_rct`, if
`rct_areActive[i] && rct_nextTrigs[i] < now` the predicate is invoked
(short-circuit `&&`); on a true result, if `rct_tDelays[i] == 0` then
`rct_nextTrigs[i] = now + rct_tTimeouts[i]` and the callback is invoked,
else `rct_nextTrigs[i] = now + rct_tTimeouts[i]`,
`rct_nextCalls[i] = now + rct_tDelays[i]`, `rct_areTrigged[i] = true`. -/
def scanPhase (preds : Nat → Bool) (now : Nat) : Nat → List RctEntry → List RctEntry × List Ev
  | _, [] => ([], [])
  | i, e :: l =>
    let rest := scanPhase preds now (i+1) l
    if e.active = true ∧ e.nextTrig < now then
      if preds i then
        if e.delay = 0 then
          ({ e with nextTrig := now + e.timeout } :: rest.1,
            Ev.predCall i true :: Ev.immAct i :: rest.2)
        else
          let e' : RctEntry :=
            { e with nextTrig := now + e.timeout, nextCall := now + e.delay, trigged := true }
          (e' :: rest.1, Ev.predCall i true :: rest.2)
      else (e :: rest.1, Ev.predCall i false :: rest.2)
    else (e :: rest.1, rest.2)

/-- One `SimpleEvents::run()` tick: a single clock sample `now`, then the
three phases in source order (schedules, settle, scan), the scan acting
on the reaction table as left by the settle loop.  Returns the new state
and the tick's event log. -/
def runTick (preds : Nat → Bool) (now : Nat) (s : SEState) : SEState × List Ev :=
  let sp := schdPhase now 0 s.schds
  let st := settlePhase now 0 s.rcts
  let sc := scanPhase preds now 0 st.1
  ({ s with schds := sp.1, rcts := sc.1 }, sp.2 ++ st.2 ++ sc.2)

/-- A sequence of ticks: each element supplies the clock sample and the
per-entry predicate results of that tick. -/
def runTicks (ticks : List (Nat × (Nat → Bool))) (s : SEState) : SEState :=
  ticks.foldl (fun s t => (runTick t.2 t.1 s).1) s

/-- The firing timestamps of schedule `j` over a sequence of ticks: the
scheduled time `next_fire` (the phase reference) at each tick in which
the entry fires. -/
def schdTimes (j : Nat) : List (Nat × (Nat → Bool)) → SEState → List Nat
  | [], _ => []
  | t :: ts, s =>
    let e := s.schds.getD j dS
    let rest := schdTimes j ts (runTick t.2 t.1 s).1
    if e.active = true ∧ e.nextCall < t.1 then e.nextCall :: rest else rest

/-- The per-entry effect of the schedule loop on one entry. -/
def tickS (now : Nat) (e : SchdEntry) : SchdEntry :=
  if e.active = true ∧ e.nextCall < now then { e with nextCall := e.nextCall + e.interval }
  else e

/-- The per-entry effect of the settle loop on one entry. -/
def settleS (now : Nat) (e : RctEntry) : RctEntry :=
  if e.trigged = true ∧ e.nextCall < now then { e with trigged := false } else e

/-- The per-entry effect of the scan loop on entry `i`. -/
def scanS (preds : Nat → Bool) (now : Nat) (i : Nat) (e : RctEntry) : RctEntry :=
  if e.active = true ∧ e.nextTrig < now then
    if preds i then
      if e.delay = 0 then { e with nextTrig := now + e.timeout }
      else { e with nextTrig := now + e.timeout, nextCall := now + e.delay, trigged := true }
    else e
  else e

/-- Single-entry firing-time trace: the `next_fire` value at each tick in
which the entry fires, the entry advancing by `tickS` each tick. -/
def fireTimes (e : SchdEntry) : List Nat → List Nat
  | [] => []
  | n :: ns =>
    if e.active = true ∧ e.nextCall < n then e.nextCall :: fireTimes (tickS n e) ns
    else fireTimes (tickS n e) ns

/-! ## Data model of the compact variant (`TinyEvents`)

No `active` flags: pausing is expressed through far-future timestamps.
The pending set `rct_areTrigged` is a bit-packed `uint8_t` array of
`(7 + R_MAX) / 8` bytes; entry `i` lives in bit `i % 8` of byte `i / 8`.
Durations are stored in narrower machine types (`TDur_t`, `TWait_t`) and
widened to `unsigned long` on use; as the stored value is preserved by
the widening, they are modelled as `Nat` like all other times. -/

structure TinySchd where
  interval : Nat
  nextCall : Nat
  deriving Repr, DecidableEq

structure TinyRct where
  timeout : Nat
  delay : Nat
  nextTrig : Nat
  nextCall : Nat
  deriving Repr, DecidableEq

/-- Default compact entries (zero-initialised array slots). -/
def dTS : TinySchd := ⟨0, 0⟩

/-- Default compact reaction entry. -/
def dTR : TinyRct := ⟨0, 0, 0, 0⟩

/-- The engine state of `TinyEvents<T_MAX, R_MAX, TDur_t, TWait_t>`:
populated table prefixes plus the bit-packed pending bytes. -/
structure TEState where
  tmax : Nat
  rmax : Nat
  schds : List TinySchd
  rcts : List TinyRct
  trigBits : List Nat
  deriving Repr, DecidableEq

/-- A freshly constructed compact engine: empty tables, all pending bits
zero. -/
def mkTE (tmax rmax : Nat) : TEState :=
  ⟨tmax, rmax, [], [], List.replicate ((7 + rmax) / 8) 0⟩

/-- `last_schd` of the compact variant. -/
def TEState.lastSchd (s : TEState) : Int := (s.schds.length : Int) - 1

/-- `last_rct` of the compact variant. -/
def TEState.lastRct (s : TEState) : Int := (s.rcts.length : Int) - 1

/-- `(rct_areTrigged[i/8] & (0x01 << (i%8))) != 0`. -/
def teTest (bits : List Nat) (i : Nat) : Bool :=
  (bits.getD (i / 8) 0) &&& (1 <<< (i % 8)) != 0

/-- `rct_areTrigged[i/8] |= (0x01 << (i%8))`. -/
def teSet (bits : List Nat) (i : Nat) : List Nat :=
  modifyIdx (fun b => b ||| (1 <<< (i % 8))) (i / 8) bits

/-- `rct_areTrigged[i/8] &= ~(0x01 << (i%8))`; on a `uint8_t` the
complement of the (sub-256) mask is `255 ^^^ mask`. -/
def teClear (bits : List Nat) (i : Nat) : List Nat :=
  modifyIdx (fun b => b &&& (255 ^^^ (1 <<< (i % 8)))) (i / 8) bits

/-- `TinyEvents::addSchedule`: same capacity guard and dense-id
allocation as the full variant; no `active` flag exists. -/
def teAddSchedule (s : TEState) (interval delayStart : Nat) : Int × TEState :=
  if s.schds.length ≥ s.tmax then (-1, s)
  else ((s.schds.length : Int), { s with schds := s.schds ++ [⟨interval, delayStart⟩] })

/-- `TinyEvents::addReaction`: stores `timeout` and `delay` verbatim and
sets `next_trigger_check = delay_start`. -/
def teAddReaction (s : TEState) (timeout delay delayStart : Nat) : Int × TEState :=
  if s.rcts.length ≥ s.rmax then (-1, s)
  else ((s.rcts.length : Int), { s with rcts := s.rcts ++ [⟨timeout, delay, delayStart, 0⟩] })

/-- `TinyEvents::cancelReaction(rct_id, reset_debounce, timestamp, abs)`:
out-of-range id is a silent no-op; otherwise, when `reset_debounce > 0`,
`next_trigger_check` is set to `abs < 1 ? timestamp + now : timestamp`;
in every valid case the pending bit is cleared. -/
def teCancelReaction (s : TEState) (now : Nat) (id : Int) (resetDebounce : Int)
    (timestamp : Nat) (abs : Int) : TEState :=
  if id < 0 ∨ id > s.lastRct then s
  else
    let s' :=
      if resetDebounce > 0 then
        let t := if abs < 1 then timestamp + now else timestamp
        { s with rcts := modifyIdx (fun e => { e with nextTrig := t }) id.toNat s.rcts }
      else s
    { s' with trigBits := teClear s'.trigBits id.toNat }

/-- `TinyEvents::setNextSchedule(schd_id, timestamp, abs)`. -/
def teSetNextSchedule (s : TEState) (now : Nat) (id : Int) (timestamp : Nat) (abs : Int) :
    TEState :=
  if id < 0 ∨ id > s.lastSchd then s
  else
    let t := if abs < 1 then timestamp + now else timestamp
    { s with schds := modifyIdx (fun e => { e with nextCall := t }) id.toNat s.schds }

/-- `TinyEvents::setNextTrigger(rct_id, timestamp, abs)`. -/
def teSetNextTrigger (s : TEState) (now : Nat) (id : Int) (timestamp : Nat) (abs : Int) :
    TEState :=
  if id < 0 ∨ id > s.lastRct then s
  else
    let t := if abs < 1 then timestamp + now else timestamp
    { s with rcts := modifyIdx (fun e => { e with nextTrig := t }) id.toNat s.rcts }

/-- `TinyEvents::begin()`. -/
def beginTE (s : TEState) (now : Nat) : TEState :=
  { s with
    schds := s.schds.map (fun e => { e with nextCall := e.nextCall + now }),
    rcts := s.rcts.map (fun e => { e with nextTrig := e.nextTrig + now }) }

/-- Schedule loop of `TinyEvents::run()`: no `active` flag, fire iff
`schd_nextCalls[i] < now`, advancing by the interval first. -/
def teSchdPhase (now : Nat) : Nat → List TinySchd → List TinySchd × List Ev
  | _, [] => ([], [])
  | i, e :: l =>
    let rest := teSchdPhase now (i+1) l
    if e.nextCall < now then
      ({ e with nextCall := e.nextCall + e.interval } :: rest.1, Ev.schdAct i :: rest.2)
    else (e :: rest.1, rest.2)

/-- Settle loop of `TinyEvents::run()`: reads and clears the pending bit
of entry `i`; the reaction entries themselves are not modified.  `i` is
the absolute id (the traversal starts at 0). -/
def teSettlePhase (now : Nat) : Nat → List TinyRct → List Nat → List Nat × List Ev
  | _, [], bits => (bits, [])
  | i, e :: l, bits =>
    if teTest bits i = true ∧ e.nextCall < now then
      let rest := teSettlePhase now (i+1) l (teClear bits i)
      (rest.1, Ev.settleAct i :: rest.2)
    else
      teSettlePhase now (i+1) l bits

/-- New-trigger scan of `TinyEvents::run()`: the predicate is invoked iff
`rct_nextTrigs[i] < now` (short-circuit `&&`); on a true result the
`delay == 0` case executes immediately, otherwise the pending bit is set
and `next_execution` armed. -/
def teScanPhase (preds : Nat → Bool) (now : Nat) :
    Nat → List TinyRct → List Nat → (List TinyRct × List Nat) × List Ev
  | _, [], bits => (([], bits), [])
  | i, e :: l, bits =>
    if e.nextTrig < now then
      if preds i then
        if e.delay = 0 then
          let rest := teScanPhase preds now (i+1) l bits
          (({ e with nextTrig := now + e.timeout } :: rest.1.1, rest.1.2),
            Ev.predCall i true :: Ev.immAct i :: rest.2)
        else
          let e' : TinyRct := { e with nextTrig := now + e.timeout, nextCall := now + e.delay }
          let rest := teScanPhase preds now (i+1) l (teSet bits i)
          ((e' :: rest.1.1, rest.1.2), Ev.predCall i true :: rest.2)
      else
        let rest := teScanPhase preds now (i+1) l bits
        ((e :: rest.1.1, rest.1.2), Ev.predCall i false :: rest.2)
    else
      let rest := teScanPhase preds now (i+1) l bits
      ((e :: rest.1.1, rest.1.2), rest.2)

/-- One `TinyEvents::run()` tick: single clock sample, schedule loop,
settle loop (clearing pending bits), then the scan over the reaction
entries (which the settle loop left unmodified) with the settled bits. -/
def teRunTick (preds : Nat → Bool) (now : Nat) (s : TEState) : TEState × List Ev :=
  let sp := teSchdPhase now 0 s.schds
  let st := teSettlePhase now 0 s.rcts s.trigBits
  let sc := teScanPhase preds now 0 s.rcts st.1
  ({ s with schds := sp.1, rcts := sc.1.1, trigBits := sc.1.2 }, sp.2 ++ st.2 ++ sc.2)

/-- The per-entry effect of the compact schedule loop on one entry. -/
def teTickS (now : Nat) (e : TinySchd) : TinySchd :=
  if e.nextCall < now then { e with nextCall := e.nextCall + e.interval } else e

/-- Firing timestamps of compact schedule `j` over a tick sequence. -/
def teSchdTimes (j : Nat) : List (Nat × (Nat → Bool)) → TEState → List Nat
  | [], _ => []
  | t :: ts, s =>
    let e := s.schds.getD j dTS
    let rest := teSchdTimes j ts (teRunTick t.2 t.1 s).1
    if e.nextCall < t.1 then e.nextCall :: rest else rest

/-- Single-entry firing-time trace of the compact schedule loop. -/
def teFireTimes (e : TinySchd) : List Nat → List Nat
  | [] => []
  | n :: ns =>
    if e.nextCall < n then e.nextCall :: teFireTimes (teTickS n e) ns
    else teFireTimes (teTickS n e) ns

/-! ## Lemmas: array writes -/

@[simp] theorem modifyIdx_nil {α : Type} (f : α → α) (n : Nat) :
    modifyIdx f n [] = [] := by cases n <;> rfl

@[simp] theorem modifyIdx_zero_cons {α : Type} (f : α → α) (a : α) (l : List α) :
    modifyIdx f 0 (a :: l) = f a :: l := rfl

@[simp] theorem modifyIdx_succ_cons {α : Type} (f : α → α) (n : Nat) (a : α) (l : List α) :
    modifyIdx f (n+1) (a :: l) = a :: modifyIdx f n l := rfl

@[simp] theorem length_modifyIdx {α : Type} (f : α → α) (n : Nat) (l : List α) :
    (modifyIdx f n l).length = l.length := by
  induction l generalizing n with
  | nil => simp
  | cons a l ih => cases n <;> simp [ih]

theorem getD_modifyIdx_self {α : Type} (f : α → α) (n : Nat) (l : List α) (d : α)
    (h : n < l.length) :
    (modifyIdx f n l).getD n d = f (l.getD n d) := by
  induction l generalizing n with
  | nil => simp at h
  | cons a l ih =>
    cases n with
    | zero => simp
    | succ n => simpa using ih n (by simpa using h)

theorem getD_modifyIdx_ne {α : Type} (f : α → α) (n : Nat) (l : List α) (d : α)
    (k : Nat) (h : k ≠ n) :
    (modifyIdx f n l).getD k d = l.getD k d := by
  induction l generalizing n k with
  | nil => simp
  | cons a l ih =>
    cases n with
    | zero =>
      cases k with
      | zero => exact absurd rfl h
      | succ k => simp
    | succ n =>
      cases k with
      | zero => simp
      | succ k => simpa using ih n k (by omega)

theorem modifyIdx_modifyIdx_self {α : Type} (f : α → α) (n : Nat) (l : List α)
    (hf : ∀ a, f (f a) = f a) :
    modifyIdx f n (modifyIdx f n l) = modifyIdx f n l := by
  induction l generalizing n with
  | nil => simp
  | cons a l ih => cases n <;> simp [hf, ih]

theorem getD_map_of_fix {α : Type} (f : α → α) (l : List α) (d : α) (hd : f d = d) (j : Nat) :
    (l.map f).getD j d = f (l.getD j d) := by
  induction l generalizing j with
  | nil => simpa using hd.symm
  | cons a l ih =>
    cases j with
    | zero => simp
    | succ j => simpa using ih j

/-! ## Lemmas: the tick phases of the full variant -/

@[simp] theorem settleS_active (n : Nat) (e : RctEntry) : (settleS n e).active = e.active := by
  unfold settleS; split <;> rfl

@[simp] theorem settleS_nextTrig (n : Nat) (e : RctEntry) :
    (settleS n e).nextTrig = e.nextTrig := by
  unfold settleS; split <;> rfl

@[simp] theorem settleS_nextCall (n : Nat) (e : RctEntry) :
    (settleS n e).nextCall = e.nextCall := by
  unfold settleS; split <;> rfl

@[simp] theorem settleS_delay (n : Nat) (e : RctEntry) : (settleS n e).delay = e.delay := by
  unfold settleS; split <;> rfl

@[simp] theorem settleS_timeout (n : Nat) (e : RctEntry) : (settleS n e).timeout = e.timeout := by
  unfold settleS; split <;> rfl

@[simp] theorem tickS_default (n : Nat) : tickS n dS = dS := by
  simp [tickS, dS]

@[simp] theorem settleS_default (n : Nat) : settleS n dR = dR := by
  simp [settleS, dR]

@[simp] theorem scanS_default (p : Nat → Bool) (n i : Nat) : scanS p n i dR = dR := by
  simp [scanS, dR]

theorem schdPhase_fst (now i : Nat) (l : List SchdEntry) :
    (schdPhase now i l).1 = l.map (tickS now) := by
  induction l generalizing i with
  | nil => rfl
  | cons e l ih =>
    by_cases h : e.active = true ∧ e.nextCall < now <;>
      simp [schdPhase, tickS, h, ih]

theorem settlePhase_fst (now i : Nat) (l : List RctEntry) :
    (settlePhase now i l).1 = l.map (settleS now) := by
  induction l generalizing i with
  | nil => rfl
  | cons e l ih =>
    by_cases h : e.trigged = true ∧ e.nextCall < now <;>
      simp [settlePhase, settleS, h, ih]

theorem scanPhase_length (preds : Nat → Bool) (now i : Nat) (l : List RctEntry) :
    (scanPhase preds now i l).1.length = l.length := by
  induction l generalizing i with
  | nil => rfl
  | cons e l ih =>
    by_cases h1 : e.active = true ∧ e.nextTrig < now
    · by_cases h2 : preds i
      · by_cases h3 : e.delay = 0 <;> simp [scanPhase, h1, h2, h3, ih]
      · simp [scanPhase, h1, h2, ih]
    · simp [scanPhase, h1, ih]

theorem scanPhase_getD (preds : Nat → Bool) (now i : Nat) (l : List RctEntry) (j : Nat)
    (h : j < l.length) :
    (scanPhase preds now i l).1.getD j dR = scanS preds now (i + j) (l.getD j dR) := by
  induction l generalizing i j with
  | nil => simp at h
  | cons e l ih =>
    cases j with
    | zero =>
      by_cases h1 : e.active = true ∧ e.nextTrig < now
      · by_cases h2 : preds i
        · by_cases h3 : e.delay = 0 <;> simp [scanPhase, scanS, h1, h2, h3]
        · simp [scanPhase, scanS, h1, h2]
      · simp [scanPhase, scanS, h1]
    | succ j =>
      have hj : j < l.length := by simpa using h
      have harith : i + 1 + j = i + (j + 1) := by omega
      by_cases h1 : e.active = true ∧ e.nextTrig < now
      · by_cases h2 : preds i
        · by_cases h3 : e.delay = 0 <;>
            simpa [scanPhase, h1, h2, h3, harith] using ih (i+1) j hj
        · simpa [scanPhase, h1, h2, harith] using ih (i+1) j hj
      · simpa [scanPhase, h1, harith] using ih (i+1) j hj

/-! ## Lemmas: the event logs of the three phases -/

theorem schdPhase_log_mem (now i : Nat) (l : List SchdEntry) :
    ∀ ev ∈ (schdPhase now i l).2, ∃ k, ev = Ev.schdAct k ∧ i ≤ k := by
  induction l generalizing i with
  | nil => intro ev hev; simp [schdPhase] at hev
  | cons e l ih =>
    intro ev hev
    by_cases h : e.active = true ∧ e.nextCall < now
    · simp [schdPhase, h] at hev
      rcases hev with rfl | hev
      · exact ⟨i, rfl, le_refl i⟩
      · obtain ⟨k, rfl, hk⟩ := ih (i+1) ev hev
        exact ⟨k, rfl, by omega⟩
    · simp [schdPhase, h] at hev
      obtain ⟨k, rfl, hk⟩ := ih (i+1) ev hev
      exact ⟨k, rfl, by omega⟩

theorem settlePhase_log_mem (now i : Nat) (l : List RctEntry) :
    ∀ ev ∈ (settlePhase now i l).2, ∃ k, ev = Ev.settleAct k ∧ i ≤ k := by
  induction l generalizing i with
  | nil => intro ev hev; simp [settlePhase] at hev
  | cons e l ih =>
    intro ev hev
    by_cases h : e.trigged = true ∧ e.nextCall < now
    · simp [settlePhase, h] at hev
      rcases hev with rfl | hev
      · exact ⟨i, rfl, le_refl i⟩
      · obtain ⟨k, rfl, hk⟩ := ih (i+1) ev hev
        exact ⟨k, rfl, by omega⟩
    · simp [settlePhase, h] at hev
      obtain ⟨k, rfl, hk⟩ := ih (i+1) ev hev
      exact ⟨k, rfl, by omega⟩

theorem scanPhase_log_mem (preds : Nat → Bool) (now i : Nat) (l : List RctEntry) :
    ∀ ev ∈ (scanPhase preds now i l).2,
      ∃ k, (ev = Ev.predCall k (preds k) ∨ ev = Ev.immAct k) ∧ i ≤ k := by
  induction l generalizing i with
  | nil => intro ev hev; simp [scanPhase] at hev
  | cons e l ih =>
    intro ev hev
    have step : ∀ ev ∈ (scanPhase preds now (i+1) l).2,
        ∃ k, (ev = Ev.predCall k (preds k) ∨ ev = Ev.immAct k) ∧ i ≤ k := by
      intro ev hev
      obtain ⟨k, hk, hik⟩ := ih (i+1) ev hev
      exact ⟨k, hk, by omega⟩
    by_cases h1 : e.active = true ∧ e.nextTrig < now
    · by_cases h2 : preds i
      · by_cases h3 : e.delay = 0
        · simp [scanPhase, h1, h2, h3] at hev
          rcases hev with rfl | rfl | hev
          · exact ⟨i, Or.inl (by rw [h2]), le_refl i⟩
          · exact ⟨i, Or.inr rfl, le_refl i⟩
          · exact step ev hev
        · simp [scanPhase, h1, h2, h3] at hev
          rcases hev with rfl | hev
          · exact ⟨i, Or.inl (by rw [h2]), le_refl i⟩
          · exact step ev hev
      · simp [scanPhase, h1, h2] at hev
        rcases hev with rfl | hev
        · refine ⟨i, Or.inl ?_, le_refl i⟩
          have : preds i = false := by simpa using h2
          rw [this]
        · exact step ev hev
    · simp [scanPhase, h1] at hev
      exact step ev hev

theorem schdPhase_log_sorted (now i : Nat) (l : List SchdEntry) :
    List.Sorted (· ≤ ·) ((schdPhase now i l).2.map Ev.idx) := by
  induction l generalizing i with
  | nil => simp [schdPhase]
  | cons e l ih =>
    have hge : ∀ b ∈ (schdPhase now (i+1) l).2.map Ev.idx, i ≤ b := by
      intro b hb
      simp only [List.mem_map] at hb
      obtain ⟨ev, hev, rfl⟩ := hb
      obtain ⟨k, rfl, hk⟩ := schdPhase_log_mem now (i+1) l ev hev
      simpa [Ev.idx] using by omega
    by_cases h : e.active = true ∧ e.nextCall < now
    · have heq : (schdPhase now i (e :: l)).2
          = Ev.schdAct i :: (schdPhase now (i+1) l).2 := by
        simp [schdPhase, h]
      rw [heq, List.map_cons, List.sorted_cons]
      exact ⟨fun b hb => hge b hb, ih (i+1)⟩
    · simpa [schdPhase, h] using ih (i+1)

theorem settlePhase_log_sorted (now i : Nat) (l : List RctEntry) :
    List.Sorted (· ≤ ·) ((settlePhase now i l).2.map Ev.idx) := by
  induction l generalizing i with
  | nil => simp [settlePhase]
  | cons e l ih =>
    have hge : ∀ b ∈ (settlePhase now (i+1) l).2.map Ev.idx, i ≤ b := by
      intro b hb
      simp only [List.mem_map] at hb
      obtain ⟨ev, hev, rfl⟩ := hb
      obtain ⟨k, rfl, hk⟩ := settlePhase_log_mem now (i+1) l ev hev
      simpa [Ev.idx] using by omega
    by_cases h : e.trigged = true ∧ e.nextCall < now
    · have heq : (settlePhase now i (e :: l)).2
          = Ev.settleAct i :: (settlePhase now (i+1) l).2 := by
        simp [settlePhase, h]
      rw [heq, List.map_cons, List.sorted_cons]
      exact ⟨fun b hb => hge b hb, ih (i+1)⟩
    · simpa [settlePhase, h] using ih (i+1)

theorem scanPhase_log_sorted (preds : Nat → Bool) (now i : Nat) (l : List RctEntry) :
    List.Sorted (· ≤ ·) ((scanPhase preds now i l).2.map Ev.idx) := by
  induction l generalizing i with
  | nil => simp [scanPhase]
  | cons e l ih =>
    have hge : ∀ b ∈ (scanPhase preds now (i+1) l).2.map Ev.idx, i ≤ b := by
      intro b hb
      simp only [List.mem_map] at hb
      obtain ⟨ev, hev, rfl⟩ := hb
      obtain ⟨k, hk, hik⟩ := scanPhase_log_mem preds now (i+1) l ev hev
      rcases hk with rfl | rfl <;> simpa [Ev.idx] using by omega
    by_cases h1 : e.active = true ∧ e.nextTrig < now
    · by_cases h2 : preds i
      · by_cases h3 : e.delay = 0
        · have heq : (scanPhase preds now i (e :: l)).2
              = Ev.predCall i true :: Ev.immAct i :: (scanPhase preds now (i+1) l).2 := by
            simp [scanPhase, h1, h2, h3]
          rw [heq, List.map_cons, List.map_cons, List.sorted_cons, List.sorted_cons]
          refine ⟨?_, fun b hb => hge b hb, ih (i+1)⟩
          intro b hb
          rcases List.mem_cons.mp hb with rfl | hb
          · exact Nat.le_refl _
          · exact hge b hb
        · have heq : (scanPhase preds now i (e :: l)).2
              = Ev.predCall i true :: (scanPhase preds now (i+1) l).2 := by
            simp [scanPhase, h1, h2, h3]
          rw [heq, List.map_cons, List.sorted_cons]
          exact ⟨fun b hb => hge b hb, ih (i+1)⟩
      · have heq : (scanPhase preds now i (e :: l)).2
            = Ev.predCall i false :: (scanPhase preds now (i+1) l).2 := by
          simp [scanPhase, h1, h2]
        rw [heq, List.map_cons, List.sorted_cons]
        exact ⟨fun b hb => hge b hb, ih (i+1)⟩
    · simpa [scanPhase, h1] using ih (i+1)

theorem schdPhase_count_lt (now i : Nat) (l : List SchdEntry) (k : Nat) (hk : k < i) :
    (schdPhase now i l).2.count (Ev.schdAct k) = 0 := by
  refine List.count_eq_zero.mpr (fun hmem => ?_)
  obtain ⟨k', heq, hk'⟩ := schdPhase_log_mem now i l _ hmem
  have : k = k' := by simpa using heq
  omega

theorem schdPhase_count (now i : Nat) (l : List SchdEntry) (j : Nat) (h : j < l.length) :
    (schdPhase now i l).2.count (Ev.schdAct (i + j)) =
      if (l.getD j dS).active = true ∧ (l.getD j dS).nextCall < now then 1 else 0 := by
  induction l generalizing i j with
  | nil => simp at h
  | cons e l ih =>
    cases j with
    | zero =>
      by_cases hc : e.active = true ∧ e.nextCall < now <;>
        simp [schdPhase, hc, List.count_cons, schdPhase_count_lt now (i+1) l i (by omega)]
    | succ j =>
      have hj : j < l.length := by simpa using h
      have hne : ¬ (Ev.schdAct i = Ev.schdAct (i + (j+1))) := by
        intro hEq; exact absurd (Ev.schdAct.inj hEq) (by omega)
      have harith : i + 1 + j = i + (j + 1) := by omega
      by_cases hc : e.active = true ∧ e.nextCall < now
      · have := ih (i+1) j hj
        rw [harith] at this
        simpa [schdPhase, hc, List.count_cons, hne] using this
      · have := ih (i+1) j hj
        rw [harith] at this
        simpa [schdPhase, hc] using this

theorem settlePhase_count_lt (now i : Nat) (l : List RctEntry) (k : Nat) (hk : k < i) :
    (settlePhase now i l).2.count (Ev.settleAct k) = 0 := by
  refine List.count_eq_zero.mpr (fun hmem => ?_)
  obtain ⟨k', heq, hk'⟩ := settlePhase_log_mem now i l _ hmem
  have : k = k' := by simpa using heq
  omega

theorem settlePhase_count (now i : Nat) (l : List RctEntry) (j : Nat) (h : j < l.length) :
    (settlePhase now i l).2.count (Ev.settleAct (i + j)) =
      if (l.getD j dR).trigged = true ∧ (l.getD j dR).nextCall < now then 1 else 0 := by
  induction l generalizing i j with
  | nil => simp at h
  | cons e l ih =>
    cases j with
    | zero =>
      by_cases hc : e.trigged = true ∧ e.nextCall < now <;>
        simp [settlePhase, hc, List.count_cons, settlePhase_count_lt now (i+1) l i (by omega)]
    | succ j =>
      have hj : j < l.length := by simpa using h
      have hne : ¬ (Ev.settleAct i = Ev.settleAct (i + (j+1))) := by
        intro hEq; exact absurd (Ev.settleAct.inj hEq) (by omega)
      have harith : i + 1 + j = i + (j + 1) := by omega
      by_cases hc : e.trigged = true ∧ e.nextCall < now
      · have := ih (i+1) j hj
        rw [harith] at this
        simpa [settlePhase, hc, List.count_cons, hne] using this
      · have := ih (i+1) j hj
        rw [harith] at this
        simpa [settlePhase, hc] using this

theorem scanPhase_count_lt_pred (preds : Nat → Bool) (now i : Nat) (l : List RctEntry)
    (k : Nat) (b : Bool) (hk : k < i) :
    (scanPhase preds now i l).2.count (Ev.predCall k b) = 0 := by
  refine List.count_eq_zero.mpr (fun hmem => ?_)
  obtain ⟨k', heq, hk'⟩ := scanPhase_log_mem preds now i l _ hmem
  rcases heq with heq | heq
  · exact absurd (Ev.predCall.inj heq).1 (by omega)
  · simp at heq

theorem scanPhase_count_lt_imm (preds : Nat → Bool) (now i : Nat) (l : List RctEntry)
    (k : Nat) (hk : k < i) :
    (scanPhase preds now i l).2.count (Ev.immAct k) = 0 := by
  refine List.count_eq_zero.mpr (fun hmem => ?_)
  obtain ⟨k', heq, hk'⟩ := scanPhase_log_mem preds now i l _ hmem
  rcases heq with heq | heq
  · simp at heq
  · have : k = k' := by simpa using heq
    omega

theorem scanPhase_count_pred (preds : Nat → Bool) (now i : Nat) (l : List RctEntry)
    (j : Nat) (b : Bool) (h : j < l.length) :
    (scanPhase preds now i l).2.count (Ev.predCall (i + j) b) =
      if ((l.getD j dR).active = true ∧ (l.getD j dR).nextTrig < now) ∧ preds (i + j) = b
      then 1 else 0 := by
  induction l generalizing i j with
  | nil => simp at h
  | cons e l ih =>
    cases j with
    | zero =>
      have h0 : ∀ b', (scanPhase preds now (i+1) l).2.count (Ev.predCall i b') = 0 :=
        fun b' => scanPhase_count_lt_pred preds now (i+1) l i b' (by omega)
      by_cases h1 : e.active = true ∧ e.nextTrig < now
      · by_cases h2 : preds i
        · by_cases h3 : e.delay = 0 <;>
            cases b <;> simp [scanPhase, h1, h2, h3, List.count_cons, h0]
        · have h2' : preds i = false := by simpa using h2
          cases b <;> simp [scanPhase, h1, h2', List.count_cons, h0]
      · cases b <;> simp [scanPhase, h1, h0]
    | succ j =>
      have hj : j < l.length := by simpa using h
      have harith : i + 1 + j = i + (j + 1) := by omega
      have hne : ∀ b', ¬ (Ev.predCall i b' = Ev.predCall (i + (j+1)) b) := by
        intro b' hEq; exact absurd (Ev.predCall.inj hEq).1 (by omega)
      have := ih (i+1) j hj
      rw [harith] at this
      by_cases h1 : e.active = true ∧ e.nextTrig < now
      · by_cases h2 : preds i
        · by_cases h3 : e.delay = 0 <;>
            simpa [scanPhase, h1, h2, h3, List.count_cons, hne] using this
        · have h2' : preds i = false := by simpa using h2
          simpa [scanPhase, h1, h2', List.count_cons, hne] using this
      · simpa [scanPhase, h1] using this

theorem scanPhase_count_imm (preds : Nat → Bool) (now i : Nat) (l : List RctEntry)
    (j : Nat) (h : j < l.length) :
    (scanPhase preds now i l).2.count (Ev.immAct (i + j)) =
      if ((l.getD j dR).active = true ∧ (l.getD j dR).nextTrig < now) ∧ preds (i + j) = true
          ∧ (l.getD j dR).delay = 0
      then 1 else 0 := by
  induction l generalizing i j with
  | nil => simp at h
  | cons e l ih =>
    cases j with
    | zero =>
      have h0 : (scanPhase preds now (i+1) l).2.count (Ev.immAct i) = 0 :=
        scanPhase_count_lt_imm preds now (i+1) l i (by omega)
      by_cases h1 : e.active = true ∧ e.nextTrig < now
      · by_cases h2 : preds i
        · by_cases h3 : e.delay = 0 <;> simp [scanPhase, h1, h2, h3, List.count_cons, h0]
        · have h2' : preds i = false := by simpa using h2
          simp [scanPhase, h1, h2', List.count_cons, h0]
      · simp [scanPhase, h1, h0]
    | succ j =>
      have hj : j < l.length := by simpa using h
      have harith : i + 1 + j = i + (j + 1) := by omega
      have hne : ¬ (Ev.immAct i = Ev.immAct (i + (j+1))) := by
        intro hEq; exact absurd (Ev.immAct.inj hEq) (by omega)
      have := ih (i+1) j hj
      rw [harith] at this
      by_cases h1 : e.active = true ∧ e.nextTrig < now
      · by_cases h2 : preds i
        · by_cases h3 : e.delay = 0 <;>
            simpa [scanPhase, h1, h2, h3, List.count_cons, hne] using this
        · have h2' : preds i = false := by simpa using h2
          simpa [scanPhase, h1, h2', List.count_cons, hne] using this
      · simpa [scanPhase, h1] using this

/-! ## Lemmas: one full-variant tick -/

theorem runTick_schds (p : Nat → Bool) (n : Nat) (s : SEState) :
    (runTick p n s).1.schds = s.schds.map (tickS n) := by
  simp [runTick, schdPhase_fst]

theorem runTick_schds_getD (p : Nat → Bool) (n : Nat) (s : SEState) (j : Nat) :
    (runTick p n s).1.schds.getD j dS = tickS n (s.schds.getD j dS) := by
  rw [runTick_schds, getD_map_of_fix _ _ _ (tickS_default n) j]

theorem runTick_rcts_getD (p : Nat → Bool) (n : Nat) (s : SEState) (j : Nat)
    (hj : j < s.rcts.length) :
    (runTick p n s).1.rcts.getD j dR = scanS p n j (settleS n (s.rcts.getD j dR)) := by
  show (scanPhase p n 0 (settlePhase n 0 s.rcts).1).1.getD j dR = _
  rw [settlePhase_fst]
  have hlen : j < (s.rcts.map (settleS n)).length := by simpa using hj
  rw [scanPhase_getD p n 0 _ j hlen, getD_map_of_fix _ _ _ (settleS_default n) j]
  simp

theorem runTick_log (p : Nat → Bool) (n : Nat) (s : SEState) :
    (runTick p n s).2 = (schdPhase n 0 s.schds).2 ++ (settlePhase n 0 s.rcts).2
      ++ (scanPhase p n 0 (s.rcts.map (settleS n))).2 := by
  simp [runTick, settlePhase_fst]

theorem runTick_count_schdAct (p : Nat → Bool) (n : Nat) (s : SEState) (j : Nat)
    (hj : j < s.schds.length) :
    (runTick p n s).2.count (Ev.schdAct j) =
      if (s.schds.getD j dS).active = true ∧ (s.schds.getD j dS).nextCall < n
      then 1 else 0 := by
  rw [runTick_log]
  have hb : (settlePhase n 0 s.rcts).2.count (Ev.schdAct j) = 0 := by
    refine List.count_eq_zero.mpr (fun hmem => ?_)
    obtain ⟨k, heq, -⟩ := settlePhase_log_mem n 0 s.rcts _ hmem
    simp at heq
  have hc : (scanPhase p n 0 (s.rcts.map (settleS n))).2.count (Ev.schdAct j) = 0 := by
    refine List.count_eq_zero.mpr (fun hmem => ?_)
    obtain ⟨k, heq, -⟩ := scanPhase_log_mem p n 0 _ _ hmem
    rcases heq with heq | heq <;> simp at heq
  have ha := schdPhase_count n 0 s.schds j hj
  simp only [Nat.zero_add] at ha
  simp [List.count_append, ha, hb, hc]

theorem runTick_count_settleAct (p : Nat → Bool) (n : Nat) (s : SEState) (j : Nat)
    (hj : j < s.rcts.length) :
    (runTick p n s).2.count (Ev.settleAct j) =
      if (s.rcts.getD j dR).trigged = true ∧ (s.rcts.getD j dR).nextCall < n
      then 1 else 0 := by
  rw [runTick_log]
  have ha : (schdPhase n 0 s.schds).2.count (Ev.settleAct j) = 0 := by
    refine List.count_eq_zero.mpr (fun hmem => ?_)
    obtain ⟨k, heq, -⟩ := schdPhase_log_mem n 0 s.schds _ hmem
    simp at heq
  have hc : (scanPhase p n 0 (s.rcts.map (settleS n))).2.count (Ev.settleAct j) = 0 := by
    refine List.count_eq_zero.mpr (fun hmem => ?_)
    obtain ⟨k, heq, -⟩ := scanPhase_log_mem p n 0 _ _ hmem
    rcases heq with heq | heq <;> simp at heq
  have hb := settlePhase_count n 0 s.rcts j hj
  simp only [Nat.zero_add] at hb
  simp [List.count_append, ha, hb, hc]

theorem runTick_count_pred (p : Nat → Bool) (n : Nat) (s : SEState) (j : Nat) (b : Bool)
    (hj : j < s.rcts.length) :
    (runTick p n s).2.count (Ev.predCall j b) =
      if ((s.rcts.getD j dR).active = true ∧ (s.rcts.getD j dR).nextTrig < n) ∧ p j = b
      then 1 else 0 := by
  rw [runTick_log]
  have ha : (schdPhase n 0 s.schds).2.count (Ev.predCall j b) = 0 := by
    refine List.count_eq_zero.mpr (fun hmem => ?_)
    obtain ⟨k, heq, -⟩ := schdPhase_log_mem n 0 s.schds _ hmem
    simp at heq
  have hb : (settlePhase n 0 s.rcts).2.count (Ev.predCall j b) = 0 := by
    refine List.count_eq_zero.mpr (fun hmem => ?_)
    obtain ⟨k, heq, -⟩ := settlePhase_log_mem n 0 s.rcts _ hmem
    simp at heq
  have hlen : j < (s.rcts.map (settleS n)).length := by simpa using hj
  have hc := scanPhase_count_pred p n 0 (s.rcts.map (settleS n)) j b hlen
  rw [getD_map_of_fix _ _ _ (settleS_default n) j] at hc
  simp only [Nat.zero_add, settleS_active, settleS_nextTrig] at hc
  simp [List.count_append, ha, hb, hc]

theorem runTick_count_imm (p : Nat → Bool) (n : Nat) (s : SEState) (j : Nat)
    (hj : j < s.rcts.length) :
    (runTick p n s).2.count (Ev.immAct j) =
      if ((s.rcts.getD j dR).active = true ∧ (s.rcts.getD j dR).nextTrig < n) ∧ p j = true
          ∧ (s.rcts.getD j dR).delay = 0
      then 1 else 0 := by
  rw [runTick_log]
  have ha : (schdPhase n 0 s.schds).2.count (Ev.immAct j) = 0 := by
    refine List.count_eq_zero.mpr (fun hmem => ?_)
    obtain ⟨k, heq, -⟩ := schdPhase_log_mem n 0 s.schds _ hmem
    simp at heq
  have hb : (settlePhase n 0 s.rcts).2.count (Ev.immAct j) = 0 := by
    refine List.count_eq_zero.mpr (fun hmem => ?_)
    obtain ⟨k, heq, -⟩ := settlePhase_log_mem n 0 s.rcts _ hmem
    simp at heq
  have hlen : j < (s.rcts.map (settleS n)).length := by simpa using hj
  have hc := scanPhase_count_imm p n 0 (s.rcts.map (settleS n)) j hlen
  rw [getD_map_of_fix _ _ _ (settleS_default n) j] at hc
  simp only [Nat.zero_add, settleS_active, settleS_nextTrig, settleS_delay] at hc
  simp [List.count_append, ha, hb, hc]

/-! ## Lemmas: firing-time traces -/

theorem fireTimes_head (nows : List Nat) (e : SchdEntry) (t : Nat) (rest : List Nat)
    (h : fireTimes e nows = t :: rest) : t = e.nextCall := by
  induction nows generalizing e with
  | nil => simp [fireTimes] at h
  | cons n ns ih =>
    by_cases hc : e.active = true ∧ e.nextCall < n
    · rw [fireTimes, if_pos hc] at h
      exact (List.cons.inj h).1.symm
    · rw [fireTimes, if_neg hc] at h
      have htick : tickS n e = e := by simp [tickS, hc]
      rw [htick] at h
      exact ih e h

theorem fireTimes_arith (nows : List Nat) (e : SchdEntry) (h : e.active = true) (k : Nat)
    (hk : k + 1 < (fireTimes e nows).length) :
    (fireTimes e nows).getD (k+1) 0 = (fireTimes e nows).getD k 0 + e.interval := by
  induction nows generalizing e k with
  | nil => simp [fireTimes] at hk
  | cons n ns ih =>
    by_cases hc : e.active = true ∧ e.nextCall < n
    · have hrw : fireTimes e (n :: ns) = e.nextCall :: fireTimes (tickS n e) ns := by
        rw [fireTimes, if_pos hc]
      have he' : tickS n e = { e with nextCall := e.nextCall + e.interval } := by
        simp [tickS, hc]
      cases k with
      | zero =>
        rw [hrw]
        rw [hrw] at hk
        simp only [List.length_cons] at hk
        obtain ⟨t, rest, hcons⟩ : ∃ t rest, fireTimes (tickS n e) ns = t :: rest := by
          rcases hhead : fireTimes (tickS n e) ns with _ | ⟨t, rest⟩
          · rw [hhead] at hk; simp at hk
          · exact ⟨t, rest, rfl⟩
        have ht := fireTimes_head ns (tickS n e) t rest hcons
        rw [he'] at ht
        simp [hcons, ht]
      | succ k =>
        rw [hrw]
        rw [hrw] at hk
        simp only [List.length_cons] at hk
        have := ih (tickS n e) (by rw [he']; exact h) k (by omega)
        simpa [he'] using this
    · have hrw : fireTimes e (n :: ns) = fireTimes (tickS n e) ns := by
        rw [fireTimes, if_neg hc]
      have htick : tickS n e = e := by simp [tickS, hc]
      rw [htick] at hrw
      rw [hrw] at hk ⊢
      exact ih e h k hk

theorem schdTimes_eq_fireTimes (j : Nat) (ticks : List (Nat × (Nat → Bool))) (s : SEState) :
    schdTimes j ticks s = fireTimes (s.schds.getD j dS) (ticks.map Prod.fst) := by
  induction ticks generalizing s with
  | nil => rfl
  | cons t ts ih =>
    have hproj := runTick_schds_getD t.2 t.1 s j
    by_cases hc : (s.schds.getD j dS).active = true ∧ (s.schds.getD j dS).nextCall < t.1
    · rw [schdTimes, List.map_cons, fireTimes]
      rw [if_pos hc, if_pos hc]
      rw [ih ((runTick t.2 t.1 s).1), hproj]
    · rw [schdTimes, List.map_cons, fireTimes]
      rw [if_neg hc, if_neg hc]
      rw [ih ((runTick t.2 t.1 s).1), hproj]

/-! ## Lemmas: the compact variant's tick -/

@[simp] theorem teTickS_default (n : Nat) : teTickS n dTS = dTS := by
  simp [teTickS, dTS]

theorem teSchdPhase_fst (now i : Nat) (l : List TinySchd) :
    (teSchdPhase now i l).1 = l.map (teTickS now) := by
  induction l generalizing i with
  | nil => rfl
  | cons e l ih =>
    by_cases h : e.nextCall < now <;> simp [teSchdPhase, teTickS, h, ih]

theorem teSchdPhase_log_mem (now i : Nat) (l : List TinySchd) :
    ∀ ev ∈ (teSchdPhase now i l).2, ∃ k, ev = Ev.schdAct k ∧ i ≤ k := by
  induction l generalizing i with
  | nil => intro ev hev; simp [teSchdPhase] at hev
  | cons e l ih =>
    intro ev hev
    by_cases h : e.nextCall < now
    · simp [teSchdPhase, h] at hev
      rcases hev with rfl | hev
      · exact ⟨i, rfl, le_refl i⟩
      · obtain ⟨k, rfl, hk⟩ := ih (i+1) ev hev
        exact ⟨k, rfl, by omega⟩
    · simp [teSchdPhase, h] at hev
      obtain ⟨k, rfl, hk⟩ := ih (i+1) ev hev
      exact ⟨k, rfl, by omega⟩

theorem teSchdPhase_log_sorted (now i : Nat) (l : List TinySchd) :
    List.Sorted (· ≤ ·) ((teSchdPhase now i l).2.map Ev.idx) := by
  induction l generalizing i with
  | nil => simp [teSchdPhase]
  | cons e l ih =>
    have hge : ∀ b ∈ (teSchdPhase now (i+1) l).2.map Ev.idx, i ≤ b := by
      intro b hb
      simp only [List.mem_map] at hb
      obtain ⟨ev, hev, rfl⟩ := hb
      obtain ⟨k, rfl, hk⟩ := teSchdPhase_log_mem now (i+1) l ev hev
      simpa [Ev.idx] using by omega
    by_cases h : e.nextCall < now
    · have heq : (teSchdPhase now i (e :: l)).2
          = Ev.schdAct i :: (teSchdPhase now (i+1) l).2 := by
        simp [teSchdPhase, h]
      rw [heq, List.map_cons, List.sorted_cons]
      exact ⟨fun b hb => hge b hb, ih (i+1)⟩
    · simpa [teSchdPhase, h] using ih (i+1)

theorem teSchdPhase_count_lt (now i : Nat) (l : List TinySchd) (k : Nat) (hk : k < i) :
    (teSchdPhase now i l).2.count (Ev.schdAct k) = 0 := by
  refine List.count_eq_zero.mpr (fun hmem => ?_)
  obtain ⟨k', heq, hk'⟩ := teSchdPhase_log_mem now i l _ hmem
  have : k = k' := by simpa using heq
  omega

theorem teSchdPhase_count (now i : Nat) (l : List TinySchd) (j : Nat) (h : j < l.length) :
    (teSchdPhase now i l).2.count (Ev.schdAct (i + j)) =
      if (l.getD j dTS).nextCall < now then 1 else 0 := by
  induction l generalizing i j with
  | nil => simp at h
  | cons e l ih =>
    cases j with
    | zero =>
      by_cases hc : e.nextCall < now <;>
        simp [teSchdPhase, hc, List.count_cons, teSchdPhase_count_lt now (i+1) l i (by omega)]
    | succ j =>
      have hj : j < l.length := by simpa using h
      have hne : ¬ (Ev.schdAct i = Ev.schdAct (i + (j+1))) := by
        intro hEq; exact absurd (Ev.schdAct.inj hEq) (by omega)
      have harith : i + 1 + j = i + (j + 1) := by omega
      have := ih (i+1) j hj
      rw [harith] at this
      by_cases hc : e.nextCall < now
      · simpa [teSchdPhase, hc, List.count_cons, hne] using this
      · simpa [teSchdPhase, hc] using this

theorem teSettlePhase_log_mem (now i : Nat) (l : List TinyRct) (bits : List Nat) :
    ∀ ev ∈ (teSettlePhase now i l bits).2, ∃ k, ev = Ev.settleAct k ∧ i ≤ k := by
  induction l generalizing i bits with
  | nil => intro ev hev; simp [teSettlePhase] at hev
  | cons e l ih =>
    intro ev hev
    by_cases h : teTest bits i = true ∧ e.nextCall < now
    · simp [teSettlePhase, h] at hev
      rcases hev with rfl | hev
      · exact ⟨i, rfl, le_refl i⟩
      · obtain ⟨k, rfl, hk⟩ := ih (i+1) (teClear bits i) ev hev
        exact ⟨k, rfl, by omega⟩
    · simp [teSettlePhase, h] at hev
      obtain ⟨k, rfl, hk⟩ := ih (i+1) bits ev hev
      exact ⟨k, rfl, by omega⟩

theorem teSettlePhase_log_sorted (now i : Nat) (l : List TinyRct) (bits : List Nat) :
    List.Sorted (· ≤ ·) ((teSettlePhase now i l bits).2.map Ev.idx) := by
  induction l generalizing i bits with
  | nil => simp [teSettlePhase]
  | cons e l ih =>
    by_cases h : teTest bits i = true ∧ e.nextCall < now
    · have hge : ∀ b ∈ (teSettlePhase now (i+1) l (teClear bits i)).2.map Ev.idx, i ≤ b := by
        intro b hb
        simp only [List.mem_map] at hb
        obtain ⟨ev, hev, rfl⟩ := hb
        obtain ⟨k, rfl, hk⟩ := teSettlePhase_log_mem now (i+1) l (teClear bits i) ev hev
        simpa [Ev.idx] using by omega
      have heq : (teSettlePhase now i (e :: l) bits).2
          = Ev.settleAct i :: (teSettlePhase now (i+1) l (teClear bits i)).2 := by
        simp [teSettlePhase, h]
      rw [heq, List.map_cons, List.sorted_cons]
      exact ⟨fun b hb => hge b hb, ih (i+1) (teClear bits i)⟩
    · simpa [teSettlePhase, h] using ih (i+1) bits

theorem teScanPhase_log_mem (preds : Nat → Bool) (now i : Nat) (l : List TinyRct)
    (bits : List Nat) :
    ∀ ev ∈ (teScanPhase preds now i l bits).2,
      ∃ k, (ev = Ev.predCall k (preds k) ∨ ev = Ev.immAct k) ∧ i ≤ k := by
  induction l generalizing i bits with
  | nil => intro ev hev; simp [teScanPhase] at hev
  | cons e l ih =>
    intro ev hev
    have step : ∀ (bits' : List Nat), ∀ ev ∈ (teScanPhase preds now (i+1) l bits').2,
        ∃ k, (ev = Ev.predCall k (preds k) ∨ ev = Ev.immAct k) ∧ i ≤ k := by
      intro bits' ev hev
      obtain ⟨k, hk, hik⟩ := ih (i+1) bits' ev hev
      exact ⟨k, hk, by omega⟩
    by_cases h1 : e.nextTrig < now
    · by_cases h2 : preds i
      · by_cases h3 : e.delay = 0
        · simp [teScanPhase, h1, h2, h3] at hev
          rcases hev with rfl | rfl | hev
          · exact ⟨i, Or.inl (by rw [h2]), le_refl i⟩
          · exact ⟨i, Or.inr rfl, le_refl i⟩
          · exact step bits ev hev
        · simp [teScanPhase, h1, h2, h3] at hev
          rcases hev with rfl | hev
          · exact ⟨i, Or.inl (by rw [h2]), le_refl i⟩
          · exact step (teSet bits i) ev hev
      · simp [teScanPhase, h1, h2] at hev
        rcases hev with rfl | hev
        · refine ⟨i, Or.inl ?_, le_refl i⟩
          have : preds i = false := by simpa using h2
          rw [this]
        · exact step bits ev hev
    · simp [teScanPhase, h1] at hev
      exact step bits ev hev

theorem teScanPhase_log_sorted (preds : Nat → Bool) (now i : Nat) (l : List TinyRct)
    (bits : List Nat) :
    List.Sorted (· ≤ ·) ((teScanPhase preds now i l bits).2.map Ev.idx) := by
  induction l generalizing i bits with
  | nil => simp [teScanPhase]
  | cons e l ih =>
    have hge : ∀ (bits' : List Nat),
        ∀ b ∈ (teScanPhase preds now (i+1) l bits').2.map Ev.idx, i ≤ b := by
      intro bits' b hb
      simp only [List.mem_map] at hb
      obtain ⟨ev, hev, rfl⟩ := hb
      obtain ⟨k, hk, hik⟩ := teScanPhase_log_mem preds now (i+1) l bits' ev hev
      rcases hk with rfl | rfl <;> simpa [Ev.idx] using by omega
    by_cases h1 : e.nextTrig < now
    · by_cases h2 : preds i
      · by_cases h3 : e.delay = 0
        · have heq : (teScanPhase preds now i (e :: l) bits).2
              = Ev.predCall i true :: Ev.immAct i :: (teScanPhase preds now (i+1) l bits).2 := by
            simp [teScanPhase, h1, h2, h3]
          rw [heq, List.map_cons, List.map_cons, List.sorted_cons, List.sorted_cons]
          refine ⟨?_, fun b hb => hge bits b hb, ih (i+1) bits⟩
          intro b hb
          rcases List.mem_cons.mp hb with rfl | hb
          · exact Nat.le_refl _
          · exact hge bits b hb
        · have heq : (teScanPhase preds now i (e :: l) bits).2
              = Ev.predCall i true :: (teScanPhase preds now (i+1) l (teSet bits i)).2 := by
            simp [teScanPhase, h1, h2, h3]
          rw [heq, List.map_cons, List.sorted_cons]
          exact ⟨fun b hb => hge (teSet bits i) b hb, ih (i+1) (teSet bits i)⟩
      · have heq : (teScanPhase preds now i (e :: l) bits).2
            = Ev.predCall i false :: (teScanPhase preds now (i+1) l bits).2 := by
          simp [teScanPhase, h1, h2]
        rw [heq, List.map_cons, List.sorted_cons]
        exact ⟨fun b hb => hge bits b hb, ih (i+1) bits⟩
    · simpa [teScanPhase, h1] using ih (i+1) bits

theorem teRunTick_schds (p : Nat → Bool) (n : Nat) (t : TEState) :
    (teRunTick p n t).1.schds = t.schds.map (teTickS n) := by
  simp [teRunTick, teSchdPhase_fst]

theorem teRunTick_schds_getD (p : Nat → Bool) (n : Nat) (t : TEState) (j : Nat) :
    (teRunTick p n t).1.schds.getD j dTS = teTickS n (t.schds.getD j dTS) := by
  rw [teRunTick_schds, getD_map_of_fix _ _ _ (teTickS_default n) j]

theorem teRunTick_log (p : Nat → Bool) (n : Nat) (t : TEState) :
    (teRunTick p n t).2 = (teSchdPhase n 0 t.schds).2
      ++ (teSettlePhase n 0 t.rcts t.trigBits).2
      ++ (teScanPhase p n 0 t.rcts (teSettlePhase n 0 t.rcts t.trigBits).1).2 := rfl

theorem teRunTick_count_schdAct (p : Nat → Bool) (n : Nat) (t : TEState) (j : Nat)
    (hj : j < t.schds.length) :
    (teRunTick p n t).2.count (Ev.schdAct j) =
      if (t.schds.getD j dTS).nextCall < n then 1 else 0 := by
  rw [teRunTick_log]
  have hb : (teSettlePhase n 0 t.rcts t.trigBits).2.count (Ev.schdAct j) = 0 := by
    refine List.count_eq_zero.mpr (fun hmem => ?_)
    obtain ⟨k, heq, -⟩ := teSettlePhase_log_mem n 0 t.rcts t.trigBits _ hmem
    simp at heq
  have hc : (teScanPhase p n 0 t.rcts
      (teSettlePhase n 0 t.rcts t.trigBits).1).2.count (Ev.schdAct j) = 0 := by
    refine List.count_eq_zero.mpr (fun hmem => ?_)
    obtain ⟨k, heq, -⟩ := teScanPhase_log_mem p n 0 _ _ _ hmem
    rcases heq with heq | heq <;> simp at heq
  have ha := teSchdPhase_count n 0 t.schds j hj
  simp only [Nat.zero_add] at ha
  simp [List.count_append, ha, hb, hc]

theorem teFireTimes_head (nows : List Nat) (e : TinySchd) (x : Nat) (rest : List Nat)
    (h : teFireTimes e nows = x :: rest) : x = e.nextCall := by
  induction nows generalizing e with
  | nil => simp [teFireTimes] at h
  | cons n ns ih =>
    by_cases hc : e.nextCall < n
    · rw [teFireTimes, if_pos hc] at h
      exact (List.cons.inj h).1.symm
    · rw [teFireTimes, if_neg hc] at h
      have htick : teTickS n e = e := by simp [teTickS, hc]
      rw [htick] at h
      exact ih e h

theorem teFireTimes_arith (nows : List Nat) (e : TinySchd) (k : Nat)
    (hk : k + 1 < (teFireTimes e nows).length) :
    (teFireTimes e nows).getD (k+1) 0 = (teFireTimes e nows).getD k 0 + e.interval := by
  induction nows generalizing e k with
  | nil => simp [teFireTimes] at hk
  | cons n ns ih =>
    by_cases hc : e.nextCall < n
    · have hrw : teFireTimes e (n :: ns) = e.nextCall :: teFireTimes (teTickS n e) ns := by
        rw [teFireTimes, if_pos hc]
      have he' : teTickS n e = { e with nextCall := e.nextCall + e.interval } := by
        simp [teTickS, hc]
      cases k with
      | zero =>
        rw [hrw]
        rw [hrw] at hk
        simp only [List.length_cons] at hk
        obtain ⟨x, rest, hcons⟩ : ∃ x rest, teFireTimes (teTickS n e) ns = x :: rest := by
          rcases hhead : teFireTimes (teTickS n e) ns with _ | ⟨x, rest⟩
          · rw [hhead] at hk; simp at hk
          · exact ⟨x, rest, rfl⟩
        have hx := teFireTimes_head ns (teTickS n e) x rest hcons
        rw [he'] at hx
        simp [hcons, hx]
      | succ k =>
        rw [hrw]
        rw [hrw] at hk
        simp only [List.length_cons] at hk
        have := ih (teTickS n e) k (by omega)
        simpa [he'] using this
    · have hrw : teFireTimes e (n :: ns) = teFireTimes (teTickS n e) ns := by
        rw [teFireTimes, if_neg hc]
      have htick : teTickS n e = e := by simp [teTickS, hc]
      rw [htick] at hrw
      rw [hrw] at hk ⊢
      exact ih e k hk

theorem teSchdTimes_eq_teFireTimes (j : Nat) (ticks : List (Nat × (Nat → Bool)))
    (t : TEState) :
    teSchdTimes j ticks t = teFireTimes (t.schds.getD j dTS) (ticks.map Prod.fst) := by
  induction ticks generalizing t with
  | nil => rfl
  | cons tk ts ih =>
    have hproj := teRunTick_schds_getD tk.2 tk.1 t j
    by_cases hc : (t.schds.getD j dTS).nextCall < tk.1
    · rw [teSchdTimes, List.map_cons, teFireTimes]
      rw [if_pos hc, if_pos hc]
      rw [ih ((teRunTick tk.2 tk.1 t).1), hproj]
    · rw [teSchdTimes, List.map_cons, teFireTimes]
      rw [if_neg hc, if_neg hc]
      rw [ih ((teRunTick tk.2 tk.1 t).1), hproj]

/-! ## Claim theorems -/

/-- C8.  `resume_schedule(id, R, false)` sets `active = true` and
`next_fire = now + R` (`now` sampled at the call); `resume_schedule(id,
T, true)` sets `active = true` and `next_fire = exactly T`; no other
entry and no other field of the entry is modified. -/
theorem resumeSchedule_spec (s : SEState) (now : Nat) (id ts : Nat) (abs : Bool)
    (hid : id < s.schds.length) :
    (resumeSchedule s now (id : Int) ts abs).schds.getD id dS
        = { s.schds.getD id dS with active := true, nextCall := if abs then ts else now + ts }
    ∧ (∀ k, k ≠ id →
        (resumeSchedule s now (id : Int) ts abs).schds.getD k dS = s.schds.getD k dS)
    ∧ (resumeSchedule s now (id : Int) ts abs).schds.length = s.schds.length
    ∧ (resumeSchedule s now (id : Int) ts abs).rcts = s.rcts
    ∧ (resumeSchedule s now (id : Int) ts abs).tmax = s.tmax
    ∧ (resumeSchedule s now (id : Int) ts abs).rmax = s.rmax := by
  have hguard : ¬ ((id : Int) < 0 ∨ (id : Int) > s.lastSchd) := by
    simp only [SEState.lastSchd]; omega
  rw [resumeSchedule, if_neg hguard]
  simp only [Int.toNat_ofNat]
  refine ⟨?_, ?_, ?_, ?_, ?_, ?_⟩
  · rw [getD_modifyIdx_self _ _ _ _ hid]
    cases abs <;> simp [Nat.add_comm now ts]
  · intro k hk
    exact getD_modifyIdx_ne _ _ _ _ _ hk
  · simp
  · trivial
  · trivial
  · trivial

/-- C8 witness at a concrete input. -/
theorem resumeSchedule_spec_witness :
    (0 < (⟨4, 4, [⟨9, 2, false⟩], []⟩ : SEState).schds.length)
    ∧ (resumeSchedule ⟨4, 4, [⟨9, 2, false⟩], []⟩ 100 (0 : Int) 30 false).schds.getD 0 dS
        = { (⟨4, 4, [⟨9, 2, false⟩], []⟩ : SEState).schds.getD 0 dS with active := true, nextCall := if false then 30 else 100 + 30 } :=
  ⟨by decide, (resumeSchedule_spec ⟨4, 4, [⟨9, 2, false⟩], []⟩ 100 0 30 false (by decide)).1⟩

/-- C9.  `pause_schedule(id)` sets `active = false` and changes nothing
else (`next_fire` is frozen, not reset); applying it twice has exactly
the same effect on the state as applying it once (for every id, valid or
not). -/
theorem pauseSchedule_spec (s : SEState) (id : Nat) (hid : id < s.schds.length) :
    (pauseSchedule s (id : Int)).schds.getD id dS
        = { s.schds.getD id dS with active := false }
    ∧ (∀ k, k ≠ id → (pauseSchedule s (id : Int)).schds.getD k dS = s.schds.getD k dS)
    ∧ (pauseSchedule s (id : Int)).schds.length = s.schds.length
    ∧ (pauseSchedule s (id : Int)).rcts = s.rcts
    ∧ (pauseSchedule s (id : Int)).tmax = s.tmax
    ∧ (pauseSchedule s (id : Int)).rmax = s.rmax
    ∧ (∀ (s' : SEState) (id' : Int),
        pauseSchedule (pauseSchedule s' id') id' = pauseSchedule s' id') := by
  have hguard : ¬ ((id : Int) < 0 ∨ (id : Int) > s.lastSchd) := by
    simp only [SEState.lastSchd]; omega
  refine ⟨?_, ?_, ?_, ?_, ?_, ?_, ?_⟩
  · rw [pauseSchedule, if_neg hguard]
    simp only [Int.toNat_ofNat]
    exact getD_modifyIdx_self _ _ _ _ hid
  · intro k hk
    rw [pauseSchedule, if_neg hguard]
    simp only [Int.toNat_ofNat]
    exact getD_modifyIdx_ne _ _ _ _ _ hk
  · rw [pauseSchedule, if_neg hguard]; simp
  · rw [pauseSchedule, if_neg hguard]
  · rw [pauseSchedule, if_neg hguard]
  · rw [pauseSchedule, if_neg hguard]
  · intro s' id'
    by_cases hg : id' < 0 ∨ id' > s'.lastSchd
    · have h1 : pauseSchedule s' id' = s' := by rw [pauseSchedule, if_pos hg]
      rw [h1]
      exact h1
    · simp only [SEState.lastSchd] at hg
      simp only [pauseSchedule, SEState.lastSchd, length_modifyIdx, if_neg hg]
      rw [modifyIdx_modifyIdx_self (fun e => { e with active := false }) id'.toNat s'.schds
        (fun a => rfl)]

/-- C9 witness at a concrete input. -/
theorem pauseSchedule_spec_witness :
    (0 < (⟨4, 4, [⟨9, 2, true⟩], []⟩ : SEState).schds.length)
    ∧ (pauseSchedule ⟨4, 4, [⟨9, 2, true⟩], []⟩ (0 : Int)).schds.getD 0 dS
        = { (⟨4, 4, [⟨9, 2, true⟩], []⟩ : SEState).schds.getD 0 dS with active := false } :=
  ⟨by decide, (pauseSchedule_spec ⟨4, 4, [⟨9, 2, true⟩], []⟩ 0 (by decide)).1⟩

/-- C5.  `cancel_reaction(id, timestamp, absolute)` clears `pending` and
sets `next_trigger_check` to `absolute ? timestamp : now + timestamp`;
`stop_reaction(id)` clears `pending` only and leaves `next_trigger_check`
and every other field of every entry unchanged; applied before a pending
reaction's `next_execution` is due, either operation prevents the queued
execution (the next tick settles nothing for this id). -/
theorem cancel_stop_reaction_spec (s : SEState) (now : Nat) (id ts : Nat) (abs : Bool)
    (p : Nat → Bool) (now2 : Nat) (hid : id < s.rcts.length) :
    (cancelReaction s now (id : Int) ts abs).rcts.getD id dR
        = { s.rcts.getD id dR with nextTrig := if abs then ts else now + ts, trigged := false }
    ∧ (∀ k, k ≠ id →
        (cancelReaction s now (id : Int) ts abs).rcts.getD k dR = s.rcts.getD k dR)
    ∧ (cancelReaction s now (id : Int) ts abs).schds = s.schds
    ∧ (cancelReaction s now (id : Int) ts abs).rcts.length = s.rcts.length
    ∧ (stopReaction s (id : Int)).rcts.getD id dR
        = { s.rcts.getD id dR with trigged := false }
    ∧ (∀ k, k ≠ id → (stopReaction s (id : Int)).rcts.getD k dR = s.rcts.getD k dR)
    ∧ (stopReaction s (id : Int)).schds = s.schds
    ∧ (stopReaction s (id : Int)).rcts.length = s.rcts.length
    ∧ (runTick p now2 (cancelReaction s now (id : Int) ts abs)).2.count (Ev.settleAct id) = 0
    ∧ (runTick p now2 (stopReaction s (id : Int))).2.count (Ev.settleAct id) = 0 := by
  have hguard : ¬ ((id : Int) < 0 ∨ (id : Int) > s.lastRct) := by
    simp only [SEState.lastRct]; omega
  have hcancel : (cancelReaction s now (id : Int) ts abs).rcts.getD id dR
      = { s.rcts.getD id dR with nextTrig := if abs then ts else now + ts, trigged := false } := by
    rw [cancelReaction, if_neg hguard]
    simp only [Int.toNat_ofNat]
    rw [getD_modifyIdx_self _ _ _ _ hid]
    cases abs <;> simp [Nat.add_comm now ts]
  have hstop : (stopReaction s (id : Int)).rcts.getD id dR
      = { s.rcts.getD id dR with trigged := false } := by
    rw [stopReaction, if_neg hguard]
    simp only [Int.toNat_ofNat]
    exact getD_modifyIdx_self _ _ _ _ hid
  have hclen : (cancelReaction s now (id : Int) ts abs).rcts.length = s.rcts.length := by
    rw [cancelReaction, if_neg hguard]; simp
  have hslen : (stopReaction s (id : Int)).rcts.length = s.rcts.length := by
    rw [stopReaction, if_neg hguard]; simp
  refine ⟨hcancel, ?_, ?_, hclen, hstop, ?_, ?_, hslen, ?_, ?_⟩
  · intro k hk
    rw [cancelReaction, if_neg hguard]
    simp only [Int.toNat_ofNat]
    exact getD_modifyIdx_ne _ _ _ _ _ hk
  · rw [cancelReaction, if_neg hguard]
  · intro k hk
    rw [stopReaction, if_neg hguard]
    simp only [Int.toNat_ofNat]
    exact getD_modifyIdx_ne _ _ _ _ _ hk
  · rw [stopReaction, if_neg hguard]
  · rw [runTick_count_settleAct p now2 _ id (by rw [hclen]; exact hid), hcancel]
    simp
  · rw [runTick_count_settleAct p now2 _ id (by rw [hslen]; exact hid), hstop]
    simp

/-- C5 witness at a concrete input: one pending reaction due at 50;
cancelling (or stopping) before that suppresses the settle of the next
tick. -/
theorem cancel_stop_reaction_spec_witness :
    (0 < (⟨4, 4, [], [⟨8, 40, 60, 50, true, true⟩]⟩ : SEState).rcts.length)
    ∧ (cancelReaction ⟨4, 4, [], [⟨8, 40, 60, 50, true, true⟩]⟩ 10 (0 : Int) 0 false).rcts.getD 0 dR
        = { (⟨4, 4, [], [⟨8, 40, 60, 50, true, true⟩]⟩ : SEState).rcts.getD 0 dR with nextTrig := if false then 0 else 10 + 0, trigged := false }
    ∧ (runTick (fun _ => true) 100 (stopReaction ⟨4, 4, [], [⟨8, 40, 60, 50, true, true⟩]⟩ (0 : Int))).2.count (Ev.settleAct 0) = 0 := by
  have h := cancel_stop_reaction_spec ⟨4, 4, [], [⟨8, 40, 60, 50, true, true⟩]⟩ 10 0 0 false
    (fun _ => true) 100 (by decide)
  exact ⟨by decide, h.1, h.2.2.2.2.2.2.2.2.2⟩

/-- C6.  `add_schedule` / `add_reaction` (both variants) assign dense ids
0,1,2,… in call order while below capacity, appending one entry and
leaving existing entries untouched; at capacity they return `-1` and
leave the state entirely unchanged; an engine with schedule capacity 1
accepts one `add_schedule` with id 0 and rejects a second. -/
theorem add_capacity_spec (s : SEState) (t : TEState) (iv ds tmo de : Nat) :
    (s.schds.length < s.tmax →
      addSchedule s iv ds
        = ((s.schds.length : Int), { s with schds := s.schds ++ [⟨iv, ds, true⟩] }))
    ∧ (s.schds.length ≥ s.tmax → addSchedule s iv ds = (-1, s))
    ∧ (s.rcts.length < s.rmax →
      addReaction s tmo de ds
        = ((s.rcts.length : Int), { s with rcts := s.rcts ++ [⟨tmo, de, ds, 0, false, true⟩] }))
    ∧ (s.rcts.length ≥ s.rmax → addReaction s tmo de ds = (-1, s))
    ∧ (t.schds.length < t.tmax →
      teAddSchedule t iv ds
        = ((t.schds.length : Int), { t with schds := t.schds ++ [⟨iv, ds⟩] }))
    ∧ (t.schds.length ≥ t.tmax → teAddSchedule t iv ds = (-1, t))
    ∧ (t.rcts.length < t.rmax →
      teAddReaction t tmo de ds
        = ((t.rcts.length : Int), { t with rcts := t.rcts ++ [⟨tmo, de, ds, 0⟩] }))
    ∧ (t.rcts.length ≥ t.rmax → teAddReaction t tmo de ds = (-1, t))
    ∧ (addSchedule (mkSE 1 4) iv ds).1 = 0
    ∧ addSchedule (addSchedule (mkSE 1 4) iv ds).2 iv ds
        = (-1, (addSchedule (mkSE 1 4) iv ds).2) := by
  refine ⟨?_, ?_, ?_, ?_, ?_, ?_, ?_, ?_, ?_, ?_⟩
  · intro h; rw [addSchedule, if_neg (by omega)]
  · intro h; rw [addSchedule, if_pos h]
  · intro h; rw [addReaction, if_neg (by omega)]
  · intro h; rw [addReaction, if_pos h]
  · intro h; rw [teAddSchedule, if_neg (by omega)]
  · intro h; rw [teAddSchedule, if_pos h]
  · intro h; rw [teAddReaction, if_neg (by omega)]
  · intro h; rw [teAddReaction, if_pos h]
  · simp [addSchedule, mkSE]
  · have h1 : (addSchedule (mkSE 1 4) iv ds).2
        = { tmax := 1, rmax := 4, schds := [⟨iv, ds, true⟩], rcts := [] } := by
      rw [addSchedule, if_neg (by simp [mkSE])]
      simp [mkSE]
    rw [h1, addSchedule, if_pos (by simp)]

/-- C6 witness at a concrete input. -/
theorem add_capacity_spec_witness :
    ((⟨1, 4, [], []⟩ : SEState).schds.length < (⟨1, 4, [], []⟩ : SEState).tmax)
    ∧ addSchedule ⟨1, 4, [], []⟩ 5 0
        = ((((⟨1, 4, [], []⟩ : SEState).schds.length : Nat) : Int),
            { (⟨1, 4, [], []⟩ : SEState) with schds := [] ++ [⟨5, 0, true⟩] }) :=
  ⟨by decide, (add_capacity_spec ⟨1, 4, [], []⟩ (mkTE 4 4) 5 0 1 2).1 (by decide)⟩

/-- C7.  Every control operation of both variants invoked with an id
outside the populated range `[0, last]` returns leaving the entire
engine state unchanged. -/
theorem invalid_id_noop (sSE : SEState) (sTE : TEState) (id : Int) (now ts : Nat)
    (abs : Bool) (rd absI : Int) :
    ((id < 0 ∨ id > sSE.lastSchd) →
      pauseSchedule sSE id = sSE ∧ resumeSchedule sSE now id ts abs = sSE)
    ∧ ((id < 0 ∨ id > sSE.lastRct) →
      pauseTrigger sSE id = sSE ∧ resumeTrigger sSE now id ts abs = sSE
        ∧ cancelReaction sSE now id ts abs = sSE ∧ stopReaction sSE id = sSE)
    ∧ ((id < 0 ∨ id > sTE.lastSchd) → teSetNextSchedule sTE now id ts absI = sTE)
    ∧ ((id < 0 ∨ id > sTE.lastRct) →
      teSetNextTrigger sTE now id ts absI = sTE
        ∧ teCancelReaction sTE now id rd ts absI = sTE) := by
  refine ⟨fun h => ⟨?_, ?_⟩, fun h => ⟨?_, ?_, ?_, ?_⟩, fun h => ?_, fun h => ⟨?_, ?_⟩⟩
  · rw [pauseSchedule, if_pos h]
  · rw [resumeSchedule, if_pos h]
  · rw [pauseTrigger, if_pos h]
  · rw [resumeTrigger, if_pos h]
  · rw [cancelReaction, if_pos h]
  · rw [stopReaction, if_pos h]
  · rw [teSetNextSchedule, if_pos h]
  · rw [teSetNextTrigger, if_pos h]
  · rw [teCancelReaction, if_pos h]

/-- Scan effect on an entry that survives the settle phase, `delay = 0`
case: only `next_trigger_check` is re-armed. -/
theorem scanS_settleS_delay_zero (p : Nat → Bool) (now j : Nat) (e : RctEntry)
    (h1 : e.active = true) (h2 : e.nextTrig < now) (h3 : p j = true) (h4 : e.delay = 0) :
    scanS p now j (settleS now e) = { settleS now e with nextTrig := now + e.timeout } := by
  simp [scanS, h1, h2, h3, h4]

/-- Scan effect on an entry that survives the settle phase, `delay > 0`
case: debounce re-armed, execution queued, pending set. -/
theorem scanS_settleS_delay_pos (p : Nat → Bool) (now j : Nat) (e : RctEntry)
    (h1 : e.active = true) (h2 : e.nextTrig < now) (h3 : p j = true) (h4 : e.delay ≠ 0) :
    scanS p now j (settleS now e)
      = { e with nextTrig := now + e.timeout, nextCall := now + e.delay, trigged := true } := by
  have hsplit : settleS now e = e ∨ settleS now e = { e with trigged := false } := by
    unfold settleS; split
    · exact Or.inr rfl
    · exact Or.inl rfl
  rcases hsplit with h | h <;> rw [h] <;> simp [scanS, h1, h2, h3, h4]

/-- C1.  During one tick with clock value `now`, a schedule entry that is
active and has `next_fire < now` gets `next_fire` advanced by exactly one
`interval` (not to `now + interval`) and its callback invoked exactly
once; any other entry is untouched and not invoked; and over any tick
sequence, the firing timestamps of an active schedule form an arithmetic
sequence with common difference `interval`. -/
theorem schd_tick_spec (p : Nat → Bool) (now : Nat) (s : SEState) (j : Nat)
    (ticks : List (Nat × (Nat → Bool))) (t : TEState) (jt : Nat)
    (ticksT : List (Nat × (Nat → Bool))) (hj : j < s.schds.length)
    (hjt : jt < t.schds.length) :
    ((s.schds.getD j dS).active = true ∧ (s.schds.getD j dS).nextCall < now →
      (runTick p now s).1.schds.getD j dS
          = { s.schds.getD j dS with
              nextCall := (s.schds.getD j dS).nextCall + (s.schds.getD j dS).interval }
        ∧ (runTick p now s).2.count (Ev.schdAct j) = 1)
    ∧ (¬ ((s.schds.getD j dS).active = true ∧ (s.schds.getD j dS).nextCall < now) →
      (runTick p now s).1.schds.getD j dS = s.schds.getD j dS
        ∧ (runTick p now s).2.count (Ev.schdAct j) = 0)
    ∧ ((s.schds.getD j dS).active = true →
      ∀ k, k + 1 < (schdTimes j ticks s).length →
        (schdTimes j ticks s).getD (k+1) 0
          = (schdTimes j ticks s).getD k 0 + (s.schds.getD j dS).interval)
    ∧ ((t.schds.getD jt dTS).nextCall < now →
      (teRunTick p now t).1.schds.getD jt dTS
          = { t.schds.getD jt dTS with
              nextCall := (t.schds.getD jt dTS).nextCall + (t.schds.getD jt dTS).interval }
        ∧ (teRunTick p now t).2.count (Ev.schdAct jt) = 1)
    ∧ (¬ (t.schds.getD jt dTS).nextCall < now →
      (teRunTick p now t).1.schds.getD jt dTS = t.schds.getD jt dTS
        ∧ (teRunTick p now t).2.count (Ev.schdAct jt) = 0)
    ∧ (∀ k, k + 1 < (teSchdTimes jt ticksT t).length →
        (teSchdTimes jt ticksT t).getD (k+1) 0
          = (teSchdTimes jt ticksT t).getD k 0 + (t.schds.getD jt dTS).interval) := by
  refine ⟨?_, ?_, ?_, ?_, ?_, ?_⟩
  · intro hc
    constructor
    · rw [runTick_schds_getD, tickS, if_pos hc]
    · rw [runTick_count_schdAct p now s j hj, if_pos hc]
  · intro hc
    constructor
    · rw [runTick_schds_getD, tickS, if_neg hc]
    · rw [runTick_count_schdAct p now s j hj, if_neg hc]
  · intro hact k hk
    rw [schdTimes_eq_fireTimes] at hk ⊢
    exact fireTimes_arith (ticks.map Prod.fst) (s.schds.getD j dS) hact k hk
  · intro hc
    constructor
    · rw [teRunTick_schds_getD, teTickS, if_pos hc]
    · rw [teRunTick_count_schdAct p now t jt hjt, if_pos hc]
  · intro hc
    constructor
    · rw [teRunTick_schds_getD, teTickS, if_neg hc]
    · rw [teRunTick_count_schdAct p now t jt hjt, if_neg hc]
  · intro k hk
    rw [teSchdTimes_eq_teFireTimes] at hk ⊢
    exact teFireTimes_arith (ticksT.map Prod.fst) (t.schds.getD jt dTS) k hk

/-- C1 witness at a concrete input (entry with interval 7 due at `now = 5`). -/
theorem schd_tick_spec_witness :
    (0 < (⟨4, 4, [⟨7, 3, true⟩], []⟩ : SEState).schds.length)
    ∧ (((⟨4, 4, [⟨7, 3, true⟩], []⟩ : SEState).schds.getD 0 dS).active = true
        ∧ ((⟨4, 4, [⟨7, 3, true⟩], []⟩ : SEState).schds.getD 0 dS).nextCall < 5)
    ∧ (runTick (fun _ => true) 5 ⟨4, 4, [⟨7, 3, true⟩], []⟩).2.count (Ev.schdAct 0) = 1 :=
  by
  have h := schd_tick_spec (fun _ => true) 5 ⟨4, 4, [⟨7, 3, true⟩], []⟩ 0 []
    ⟨4, 4, [⟨7, 3⟩], [], [0]⟩ 0 [] (by decide) (by decide)
  exact ⟨by decide, by decide, (h.1 (by decide)).2⟩

/-- C2.  In one tick's scan, reaction `j`'s predicate is invoked iff the
entry is trigger-active and `next_trigger_check < now`.  On a true
result `next_trigger_check` is set to `now + timeout` unconditionally;
with `delay = 0` the callback is invoked once within the scan and
`pending` is not set; with `delay > 0` the entry gets
`next_execution = now + delay` and `pending = true` and the callback is
not invoked in the scan. -/
theorem scan_spec (p : Nat → Bool) (now : Nat) (s : SEState) (j : Nat)
    (hj : j < s.rcts.length) :
    ((∃ b, Ev.predCall j b ∈ (runTick p now s).2)
      ↔ ((s.rcts.getD j dR).active = true ∧ (s.rcts.getD j dR).nextTrig < now))
    ∧ ((s.rcts.getD j dR).active = true ∧ (s.rcts.getD j dR).nextTrig < now ∧ p j = true
        ∧ (s.rcts.getD j dR).delay = 0 →
      (runTick p now s).1.rcts.getD j dR
          = { settleS now (s.rcts.getD j dR) with
              nextTrig := now + (s.rcts.getD j dR).timeout }
        ∧ (runTick p now s).2.count (Ev.immAct j) = 1)
    ∧ ((s.rcts.getD j dR).active = true ∧ (s.rcts.getD j dR).nextTrig < now ∧ p j = true
        ∧ (s.rcts.getD j dR).delay ≠ 0 →
      (runTick p now s).1.rcts.getD j dR
          = { s.rcts.getD j dR with
              nextTrig := now + (s.rcts.getD j dR).timeout, nextCall := now + (s.rcts.getD j dR).delay, trigged := true }
        ∧ (runTick p now s).2.count (Ev.immAct j) = 0) := by
  refine ⟨?_, ?_, ?_⟩
  · constructor
    · rintro ⟨b, hb⟩
      have hcnt : (runTick p now s).2.count (Ev.predCall j b) ≠ 0 := by
        intro h0
        exact (List.count_eq_zero.mp h0) hb
      rw [runTick_count_pred p now s j b hj] at hcnt
      by_contra hc
      rw [if_neg (fun hand => hc hand.1)] at hcnt
      exact hcnt rfl
    · intro hc
      refine ⟨p j, ?_⟩
      have hcnt := runTick_count_pred p now s j (p j) hj
      rw [if_pos ⟨hc, rfl⟩] at hcnt
      by_contra hb
      rw [List.count_eq_zero.mpr hb] at hcnt
      exact one_ne_zero hcnt.symm
  · rintro ⟨h1, h2, h3, h4⟩
    constructor
    · rw [runTick_rcts_getD p now s j hj]
      exact scanS_settleS_delay_zero p now j _ h1 h2 h3 h4
    · rw [runTick_count_imm p now s j hj, if_pos ⟨⟨h1, h2⟩, h3, h4⟩]
  · rintro ⟨h1, h2, h3, h4⟩
    constructor
    · rw [runTick_rcts_getD p now s j hj]
      exact scanS_settleS_delay_pos p now j _ h1 h2 h3 h4
    · rw [runTick_count_imm p now s j hj, if_neg (fun hand => h4 hand.2.2)]

/-- C2 witness at a concrete input (`delay = 0` reaction whose trigger
fires at `now = 5`). -/
theorem scan_spec_witness :
    (0 < (⟨4, 4, [], [⟨8, 0, 2, 0, false, true⟩]⟩ : SEState).rcts.length)
    ∧ (((⟨4, 4, [], [⟨8, 0, 2, 0, false, true⟩]⟩ : SEState).rcts.getD 0 dR).active = true
        ∧ ((⟨4, 4, [], [⟨8, 0, 2, 0, false, true⟩]⟩ : SEState).rcts.getD 0 dR).nextTrig < 5
        ∧ (fun (_ : Nat) => true) 0 = true
        ∧ ((⟨4, 4, [], [⟨8, 0, 2, 0, false, true⟩]⟩ : SEState).rcts.getD 0 dR).delay = 0)
    ∧ (runTick (fun _ => true) 5 ⟨4, 4, [], [⟨8, 0, 2, 0, false, true⟩]⟩).2.count
        (Ev.immAct 0) = 1 :=
  by
  have h := scan_spec (fun _ => true) 5 ⟨4, 4, [], [⟨8, 0, 2, 0, false, true⟩]⟩ 0 (by decide)
  exact ⟨by decide, by decide, (h.2.1 (by decide)).2⟩

/-- C3.  One tick uses a single `now` value and its event log decomposes
as schedule events, then settle events, then scan events, each segment
in ascending id order; a pending entry due now has its `pending` flag
cleared by the settle phase (the state the invoked callback observes),
and the settle phase invokes each such entry exactly once per tick, so a
reaction re-armed during the scan cannot also settle in the same tick. -/
theorem tick_order_spec (p : Nat → Bool) (now : Nat) (s : SEState) (t : TEState) :
    (∃ A B C, (runTick p now s).2 = A ++ B ++ C
      ∧ (∀ ev ∈ A, ∃ k, ev = Ev.schdAct k)
      ∧ (∀ ev ∈ B, ∃ k, ev = Ev.settleAct k)
      ∧ (∀ ev ∈ C, ∃ k, ev = Ev.predCall k (p k) ∨ ev = Ev.immAct k)
      ∧ List.Sorted (· ≤ ·) (A.map Ev.idx)
      ∧ List.Sorted (· ≤ ·) (B.map Ev.idx)
      ∧ List.Sorted (· ≤ ·) (C.map Ev.idx))
    ∧ (∀ j, j < s.rcts.length →
      ((s.rcts.getD j dR).trigged = true ∧ (s.rcts.getD j dR).nextCall < now →
        (settlePhase now 0 s.rcts).1.getD j dR = { s.rcts.getD j dR with trigged := false })
      ∧ (runTick p now s).2.count (Ev.settleAct j)
          = (if (s.rcts.getD j dR).trigged = true ∧ (s.rcts.getD j dR).nextCall < now
             then 1 else 0))
    ∧ (∃ A B C, (teRunTick p now t).2 = A ++ B ++ C
      ∧ (∀ ev ∈ A, ∃ k, ev = Ev.schdAct k)
      ∧ (∀ ev ∈ B, ∃ k, ev = Ev.settleAct k)
      ∧ (∀ ev ∈ C, ∃ k, ev = Ev.predCall k (p k) ∨ ev = Ev.immAct k)
      ∧ List.Sorted (· ≤ ·) (A.map Ev.idx)
      ∧ List.Sorted (· ≤ ·) (B.map Ev.idx)
      ∧ List.Sorted (· ≤ ·) (C.map Ev.idx)) := by
  refine ⟨?_, ?_, ?_⟩
  · refine ⟨(schdPhase now 0 s.schds).2, (settlePhase now 0 s.rcts).2,
      (scanPhase p now 0 (s.rcts.map (settleS now))).2,
      runTick_log p now s, ?_, ?_, ?_, ?_, ?_, ?_⟩
    · intro ev hev
      obtain ⟨k, hk, -⟩ := schdPhase_log_mem now 0 s.schds ev hev
      exact ⟨k, hk⟩
    · intro ev hev
      obtain ⟨k, hk, -⟩ := settlePhase_log_mem now 0 s.rcts ev hev
      exact ⟨k, hk⟩
    · intro ev hev
      obtain ⟨k, hk, -⟩ := scanPhase_log_mem p now 0 _ ev hev
      exact ⟨k, hk⟩
    · exact schdPhase_log_sorted now 0 s.schds
    · exact settlePhase_log_sorted now 0 s.rcts
    · exact scanPhase_log_sorted p now 0 _
  · intro j hjlen
    constructor
    · intro hc
      rw [settlePhase_fst, getD_map_of_fix _ _ _ (settleS_default now) j]
      rw [settleS, if_pos hc]
    · exact runTick_count_settleAct p now s j hjlen
  · refine ⟨(teSchdPhase now 0 t.schds).2, (teSettlePhase now 0 t.rcts t.trigBits).2,
      (teScanPhase p now 0 t.rcts (teSettlePhase now 0 t.rcts t.trigBits).1).2,
      teRunTick_log p now t, ?_, ?_, ?_, ?_, ?_, ?_⟩
    · intro ev hev
      obtain ⟨k, hk, -⟩ := teSchdPhase_log_mem now 0 t.schds ev hev
      exact ⟨k, hk⟩
    · intro ev hev
      obtain ⟨k, hk, -⟩ := teSettlePhase_log_mem now 0 t.rcts t.trigBits ev hev
      exact ⟨k, hk⟩
    · intro ev hev
      obtain ⟨k, hk, -⟩ := teScanPhase_log_mem p now 0 _ _ ev hev
      exact ⟨k, hk⟩
    · exact teSchdPhase_log_sorted now 0 t.schds
    · exact teSettlePhase_log_sorted now 0 t.rcts t.trigBits
    · exact teScanPhase_log_sorted p now 0 _ _

/-- C3 witness at a concrete input (one pending reaction due at 50,
tick at `now = 100`). -/
theorem tick_order_spec_witness :
    (0 < (⟨4, 4, [], [⟨8, 40, 60, 50, true, true⟩]⟩ : SEState).rcts.length)
    ∧ (runTick (fun _ => true) 100 ⟨4, 4, [], [⟨8, 40, 60, 50, true, true⟩]⟩).2.count
        (Ev.settleAct 0)
      = (if ((⟨4, 4, [], [⟨8, 40, 60, 50, true, true⟩]⟩ : SEState).rcts.getD 0 dR).trigged = true
            ∧ ((⟨4, 4, [], [⟨8, 40, 60, 50, true, true⟩]⟩ : SEState).rcts.getD 0 dR).nextCall < 100
         then 1 else 0) :=
  ⟨by decide,
    ((tick_order_spec (fun _ => true) 100 ⟨4, 4, [], [⟨8, 40, 60, 50, true, true⟩]⟩
      (mkTE 2 2)).2.1 0 (by decide)).2⟩

/-- C10.  Each reaction has a single pending slot: a trigger accepted
while the entry is already pending (and not yet due) overwrites
`next_execution` with `now + delay` and re-arms the debounce, keeping
`pending = true`, with no callback invocation for the entry in that tick;
and whenever a pending entry settles, its callback is invoked exactly
once in that tick. -/
theorem pending_overwrite_spec (p : Nat → Bool) (now : Nat) (s : SEState) (j : Nat)
    (hj : j < s.rcts.length) :
    ((s.rcts.getD j dR).trigged = true ∧ ¬ (s.rcts.getD j dR).nextCall < now
        ∧ (s.rcts.getD j dR).active = true ∧ (s.rcts.getD j dR).nextTrig < now
        ∧ p j = true ∧ (s.rcts.getD j dR).delay ≠ 0 →
      (runTick p now s).1.rcts.getD j dR
          = { s.rcts.getD j dR with
              nextTrig := now + (s.rcts.getD j dR).timeout, nextCall := now + (s.rcts.getD j dR).delay, trigged := true }
        ∧ (runTick p now s).2.count (Ev.settleAct j) = 0
        ∧ (runTick p now s).2.count (Ev.immAct j) = 0)
    ∧ ((s.rcts.getD j dR).trigged = true ∧ (s.rcts.getD j dR).nextCall < now →
      (runTick p now s).2.count (Ev.settleAct j) = 1) := by
  constructor
  · rintro ⟨h1, h2, h3, h4, h5, h6⟩
    refine ⟨?_, ?_, ?_⟩
    · rw [runTick_rcts_getD p now s j hj]
      exact scanS_settleS_delay_pos p now j _ h3 h4 h5 h6
    · rw [runTick_count_settleAct p now s j hj, if_neg (fun hand => h2 hand.2)]
    · rw [runTick_count_imm p now s j hj, if_neg (fun hand => h6 hand.2.2)]
  · intro hc
    rw [runTick_count_settleAct p now s j hj, if_pos hc]

/-- C10 witness at a concrete input (pending entry due at 50, re-triggered
at `now = 3`). -/
theorem pending_overwrite_spec_witness :
    (0 < (⟨4, 4, [], [⟨5, 10, 2, 50, true, true⟩]⟩ : SEState).rcts.length)
    ∧ (((⟨4, 4, [], [⟨5, 10, 2, 50, true, true⟩]⟩ : SEState).rcts.getD 0 dR).trigged = true
        ∧ ¬ ((⟨4, 4, [], [⟨5, 10, 2, 50, true, true⟩]⟩ : SEState).rcts.getD 0 dR).nextCall < 3
        ∧ ((⟨4, 4, [], [⟨5, 10, 2, 50, true, true⟩]⟩ : SEState).rcts.getD 0 dR).active = true
        ∧ ((⟨4, 4, [], [⟨5, 10, 2, 50, true, true⟩]⟩ : SEState).rcts.getD 0 dR).nextTrig < 3
        ∧ (fun (_ : Nat) => true) 0 = true
        ∧ ((⟨4, 4, [], [⟨5, 10, 2, 50, true, true⟩]⟩ : SEState).rcts.getD 0 dR).delay ≠ 0)
    ∧ (runTick (fun _ => true) 3 ⟨4, 4, [], [⟨5, 10, 2, 50, true, true⟩]⟩).2.count
        (Ev.settleAct 0) = 0 :=
  by
  have h := pending_overwrite_spec (fun _ => true) 3
    ⟨4, 4, [], [⟨5, 10, 2, 50, true, true⟩]⟩ 0 (by decide)
  exact ⟨by decide, by decide, (h.1 (by decide)).2.1⟩

/-- C4.  The header documentation of `addReaction` (in both variants)
states that `timeout` is automatically set to be at least as long as
`delay`, but no clamping exists: with `timeout = 1`, `delay = 10` and a
constantly-true trigger, the trigger accepted at `t = 1` re-arms the
debounce only to `t = 2`, and the scan at `t = 3` accepts the trigger
again — two accepted activations only 2 ms apart, far less than
`delay = 10` (the second acceptance overwrites the queued execution,
moving it from 11 to 13).  The same trace goes through the compact
variant. -/
theorem addReaction_no_timeout_clamp :
    ((addReaction (mkSE 8 8) 1 10 0).2.rcts.getD 0 dR).timeout = 1
    ∧ ((addReaction (mkSE 8 8) 1 10 0).2.rcts.getD 0 dR).delay = 10
    ∧ (runTick (fun _ => true) 1
        (beginSE (addReaction (mkSE 8 8) 1 10 0).2 0)).2.count (Ev.predCall 0 true) = 1
    ∧ (runTick (fun _ => true) 3 (runTick (fun _ => true) 1
        (beginSE (addReaction (mkSE 8 8) 1 10 0).2 0)).1).2.count (Ev.predCall 0 true) = 1
    ∧ ((runTick (fun _ => true) 1
        (beginSE (addReaction (mkSE 8 8) 1 10 0).2 0)).1.rcts.getD 0 dR).nextCall = 11
    ∧ ((runTick (fun _ => true) 3 (runTick (fun _ => true) 1
        (beginSE (addReaction (mkSE 8 8) 1 10 0).2 0)).1).1.rcts.getD 0 dR).nextCall = 13
    ∧ ((teAddReaction (mkTE 8 8) 1 10 0).2.rcts.getD 0 dTR).timeout = 1
    ∧ ((teAddReaction (mkTE 8 8) 1 10 0).2.rcts.getD 0 dTR).delay = 10
    ∧ (teRunTick (fun _ => true) 3 (teRunTick (fun _ => true) 1
        (beginTE (teAddReaction (mkTE 8 8) 1 10 0).2 0)).1).2.count (Ev.predCall 0 true) = 1
    ∧ ((teRunTick (fun _ => true) 3 (teRunTick (fun _ => true) 1
        (beginTE (teAddReaction (mkTE 8 8) 1 10 0).2 0)).1).1.rcts.getD 0 dTR).nextCall = 13
    ∧ 3 - 1 < 10 := by decide

/-- C7 witness at a concrete input (id 3 on engines holding one entry
each, and a negative id on the compact variant). -/
theorem invalid_id_noop_witness :
    (((3 : Int) < 0 ∨ (3 : Int) > (⟨4, 4, [⟨9, 2, true⟩], [⟨1, 2, 3, 4, false, true⟩]⟩ : SEState).lastSchd)
      ∧ ((3 : Int) < 0 ∨ (3 : Int) > (mkTE 2 2).lastRct))
    ∧ pauseSchedule ⟨4, 4, [⟨9, 2, true⟩], [⟨1, 2, 3, 4, false, true⟩]⟩ 3
        = (⟨4, 4, [⟨9, 2, true⟩], [⟨1, 2, 3, 4, false, true⟩]⟩ : SEState)
    ∧ teCancelReaction (mkTE 2 2) 7 3 1 0 0 = mkTE 2 2 := by
  have h := invalid_id_noop ⟨4, 4, [⟨9, 2, true⟩], [⟨1, 2, 3, 4, false, true⟩]⟩ (mkTE 2 2)
    3 7 0 false 1 0
  exact ⟨⟨by decide, by decide⟩, (h.1 (by decide)).1, (h.2.2.2 (by decide)).2⟩

end SimpleEventsModel
